import Mathlib

/-!
Verification of the "Infinite Loop" puzzle solver (infiniteloop.c).

The C program is shallowly embedded: 16×16 byte grids become functions
`Nat → Nat → Nat`, `unsigned char` arithmetic keeps its `% 256`
truncations, fallible C functions return `Option`, and the solver's
callback/PRNG effects are made explicit (a state-passing callback, a
pick oracle, and a recorded trace of callback invocations).
-/

namespace InfiniteLoop

/-- A board or options grid: `IL_AXIS = 16` columns × 16 rows of bytes,
indexed as `g x y` like `board[x][y]` in the C source.  Cells outside
`[0,16)²` are never accessed by the embedded operations. -/
abbrev Grid := Nat → Nat → Nat

/-- Write `v` at position `(x, y)`, mirroring `g[x][y] = v`. -/
def update2 (g : Grid) (x y v : Nat) : Grid :=
  fun a b => if a = x ∧ b = y then v else g a b

/-- `rotate` from infiniteloop.c: rotates a cell clockwise by `i` steps,
where the step count is supplied as `b = 1 << i`.  The intermediate
`unsigned char v = a * b` truncates to 8 bits. -/
def rotate (a b : Nat) : Nat :=
  let v := a * b % 256
  (v ||| (v >>> 4)) &&& 15

/-- `rotate2` from infiniteloop.c: rotates a cell by 2 steps (upside down). -/
def rotate2 (c : Nat) : Nat :=
  ((c <<< 2) ||| (c >>> 2)) &&& 15

/-- `fanout` from infiniteloop.c: union of all edges that could be set
when the cell is rotated by any step in the bitmask `b`.  The four
products are OR'd as ints and then truncated to `unsigned char`. -/
def fanout (a b : Nat) : Nat :=
  let v := (a * (b &&& 1) ||| a * (b &&& 2) ||| a * (b &&& 4) ||| a * (b &&& 8)) % 256
  (v ||| (v >>> 4)) &&& 15

/-- `single_bit_set` from infiniteloop.c: `(c & (c - 1)) == 0`. -/
def single_bit_set (c : Nat) : Bool :=
  c &&& (c - 1) == 0

/-- The interior coordinates `(x, y)`, `1 ≤ x, y ≤ 14`, in the row-major
order of the C loops (`x` outer, `y` inner). -/
def interiorCoords : List (Nat × Nat) :=
  ((List.range 14).map fun i => (List.range 14).map fun j => (i + 1, j + 1)).flatten

/-- `finished` from infiniteloop.c: every interior cell has exactly one
placement left (`single_bit_set` also accepts 0, as in the source). -/
def finished (o : Grid) : Bool :=
  interiorCoords.all fun c => single_bit_set (o c.1 c.2)

/-- Combination of the four per-direction neighbour masks, as built by the
`YES`/`NO` macros in `propagate`: direction `idx` contributes bit `idx`,
and the sum is viewed from the cell's own frame via `rotate2`. -/
def combineDirs (f0 f1 f2 f3 : Nat) : Nat :=
  rotate2 ((f0 &&& 1) ||| (f1 &&& 2) ||| (f2 &&& 4) ||| (f3 &&& 8))

/-- `may_be_set` of cell `(x, y)`: which of its edges some remaining
orientation of the corresponding neighbour can receive. -/
def mbsAt (p o : Grid) (x y : Nat) : Nat :=
  combineDirs (fanout (p x (y + 1)) (o x (y + 1))) (fanout (p (x - 1) y) (o (x - 1) y))
    (fanout (p x (y - 1)) (o x (y - 1))) (fanout (p (x + 1) y) (o (x + 1) y))

/-- `may_be_clear` of cell `(x, y)`: like `mbsAt` but with every
neighbour's shape complemented (`shape ^ 0xf`). -/
def mbcAt (p o : Grid) (x y : Nat) : Nat :=
  combineDirs (fanout (p x (y + 1) ^^^ 15) (o x (y + 1)))
    (fanout (p (x - 1) y ^^^ 15) (o (x - 1) y))
    (fanout (p x (y - 1) ^^^ 15) (o x (y - 1)))
    (fanout (p (x + 1) y ^^^ 15) (o (x + 1) y))

/-- The acceptance test of `propagate` for one candidate rotation `i`:
`(c & ~may_be_set) == 0 && (c | may_be_clear) == 0xf` (on nibbles,
`~may_be_set` is `may_be_set ^ 15`). -/
def acceptBit (s mbs mbc i : Nat) : Bool :=
  let c := rotate s i
  (c &&& (mbs ^^^ 15) == 0) && ((c ||| mbc) == 15)

/-- The inner `for i` loop of `propagate`, unrolled over `i = 1,2,4,8`:
the new options mask of a cell with shape `s`, old mask `v`, and
neighbour masks `mbs`/`mbc`. -/
def newOptionsOf (s v mbs mbc : Nat) : Nat :=
  let step := fun (acc i : Nat) =>
    if v &&& i != 0 && acceptBit s mbs mbc i then acc ||| i else acc
  step (step (step (step 0 1) 2) 4) 8

/-- The per-cell body of a `propagate` sweep. -/
def newOptions (p o : Grid) (x y : Nat) : Nat :=
  newOptionsOf (p x y) (o x y) (mbsAt p o x y) (mbcAt p o x y)

/-- One row-major sweep of `propagate` over the remaining coordinates.
Each cell's mask is rewritten in place (later cells see earlier
updates); a mask that changes to 0 is the contradiction exit. -/
def sweepGo (p : Grid) : List (Nat × Nat) → Grid → Bool → Option (Grid × Bool)
  | [], o, ch => some (o, ch)
  | c :: rest, o, ch =>
    let no := newOptions p o c.1 c.2
    if no = o c.1 c.2 then sweepGo p rest o ch
    else if no = 0 then none
    else sweepGo p rest (update2 o c.1 c.2 no) true

/-- Total of all interior option masks; a strictly decreasing measure of
the `do … while (made_change)` loop of `propagate`. -/
def totalVal (o : Grid) : Nat :=
  (interiorCoords.map fun c => o c.1 c.2).sum

/-- The sweep loop of `propagate`, with explicit fuel.  `none` is fuel
exhaustion (shown impossible below when the fuel exceeds `totalVal`),
`some none` is a discovered contradiction, and `some (some o)` is the
reached fixed point. -/
def propagateAux (p : Grid) : Nat → Grid → Option (Option Grid)
  | 0, _ => none
  | f + 1, o =>
    match sweepGo p interiorCoords o false with
    | none => some none
    | some (o1, ch) => if ch then propagateAux p f o1 else some (some o1)

/-- `propagate` from infiniteloop.c: sweep to a fixed point; `none`
reports a contradiction. -/
def propagate (p o : Grid) : Option Grid :=
  (propagateAux p (totalVal o + 1) o).getD none

/-- A solution: the `horizontal[13][14]` and `vertical[14][13]` edge
bitmaps of `struct il_solution`, as total Boolean functions (only
indices inside those bounds are ever consulted). -/
structure Sol where
  horizontal : Nat → Nat → Bool
  vertical : Nat → Nat → Bool

/-- The edge extraction performed by `report`: the solution built from a
fully determined options grid. -/
def extract (p o : Grid) : Sol where
  horizontal := fun x y => rotate (p (x + 1) (y + 1)) (o (x + 1) (y + 1)) &&& 2 != 0
  vertical := fun x y => rotate (p (x + 1) (y + 1)) (o (x + 1) (y + 1)) &&& 4 != 0

/-- Result of running the search: the `dpll` return value (`true` =
continue searching), the final callback state, the trace of callback
invocations (each delivered solution with the callback's answer), and
the number of oracle picks consumed. -/
structure RunResult (σ : Type) where
  cont : Bool
  state : σ
  trace : List (Sol × Bool)
  used : Nat

/-- All 256 cells in the order scanned by `guess`'s rejection loop
(`x = u / 16`, `y = u % 16`). -/
def allCells : List (Nat × Nat) :=
  ((List.range 16).map fun i => (List.range 16).map fun j => (i, j)).flatten

/-- A cell `guess` may settle on: inside the 16×16 array and with more
than one placement left. -/
def validPick (o : Grid) (c : Nat × Nat) : Bool :=
  decide (c.1 < 16) && decide (c.2 < 16) && !single_bit_set (o c.1 c.2)

/-- `guess`'s random cell selection: the oracle's candidate if it is a
valid pick, otherwise the first valid cell (standing for the re-rolls
of the rejection-sampling loop). -/
def pickCell (o : Grid) (cand : Nat × Nat) : Nat × Nat :=
  if validPick o cand then cand else (allCells.find? (validPick o)).getD (0, 0)

/-- The `for i` loop of `guess`: try every allowed direction `i` of the
chosen cell on a copy of the grid, stopping as soon as a recursive
call reports that the consumer asked to stop. -/
def branches {σ : Type} (dp : Grid → σ → Nat → RunResult σ) (o : Grid) (c : Nat × Nat) :
    List Nat → σ → Nat → RunResult σ
  | [], st, k => ⟨true, st, [], k⟩
  | i :: rest, st, k =>
    if o c.1 c.2 &&& i != 0 then
      let r := dp (update2 o c.1 c.2 i) st k
      if r.cont then
        let r2 := branches dp o c rest r.state r.used
        ⟨r2.cont, r2.state, r.trace ++ r2.trace, r2.used⟩
      else ⟨false, r.state, r.trace, r.used⟩
    else branches dp o c rest st k

/-- `dpll` from infiniteloop.c, with explicit fuel for the recursion:
propagate, then report (via the callback) if finished, else guess.
Contradiction (and fuel exhaustion, which the driver's fuel makes
unreachable) yields "continue searching" with no callback call. -/
def dpllF {σ : Type} (oracle : Nat → Nat × Nat) (cb : Sol → σ → Bool × σ) (p : Grid) :
    Nat → Grid → σ → Nat → RunResult σ
  | 0, _, st, k => ⟨true, st, [], k⟩
  | fuel + 1, o, st, k =>
    match propagate p o with
    | none => ⟨true, st, [], k⟩
    | some o2 =>
      if finished o2 then
        let s := extract p o2
        let r := cb s st
        ⟨r.1, r.2, [(s, r.1)], k⟩
      else
        branches (dpllF oracle cb p fuel) o2 (pickCell o2 (oracle k)) [1, 2, 4, 8] st (k + 1)

/-- The initial options mask `il_solve` assigns to a cell of shape `v`. -/
def initOpt (v : Nat) : Nat :=
  if v = 0 ∨ v = 15 then 1 else if v >>> 2 = v &&& 3 then 3 else 15

/-- The initial options grid built by `il_solve`. -/
def initOptions (p : Grid) : Grid :=
  fun x y => initOpt (p x y)

/-- `il_solve` from infiniteloop.c.  The fuel 4096 strictly exceeds the
deepest possible recursion (every `guess` branch strictly lowers
`totalVal`, which starts below 196 · 15). -/
def il_solve {σ : Type} (oracle : Nat → Nat × Nat) (cb : Sol → σ → Bool × σ) (p : Grid)
    (st : σ) : RunResult σ :=
  dpllF oracle cb p 4096 (initOptions p) st 0

/-- A well-formed search run: if the run reports "continue", every
callback answer in its trace was "continue"; if it reports "stop", the
trace is some continue-answers followed by exactly one stop answer. -/
def GoodRun {σ : Type} (r : RunResult σ) : Prop :=
  (r.cont = true → ∀ e ∈ r.trace, e.2 = true) ∧
  (r.cont = false → ∃ tr0 s, r.trace = tr0 ++ [(s, false)] ∧ ∀ e ∈ tr0, e.2 = true)

/-- Cyclic left rotation of a 4-bit code by `i` positions.  Modelled from
the spec's words ("rotation … is a cyclic left-shift of the 4-bit code
modulo 4"), for comparison with the source's `rotate`. -/
def cyclicRotL4 (a i : Nat) : Nat :=
  ((a <<< i) ||| (a >>> (4 - i))) &&& 15

/-- The shape code assigned by `il_problem_parse` to a recognized shape
character, `none` for every other character. -/
def shapeCode (c : Char) : Option Nat :=
  if c = '1' then some 1
  else if c = 'C' then some 3
  else if c = 'S' then some 5
  else if c = '3' then some 7
  else if c = '4' then some 15
  else none

/-- The parsing loop of `il_problem_parse`: cursor `(x, y)` starts at
`(1, 1)`; space advances the column, newline resets it and advances the
row, a shape character outside the interior (`x ≥ 15 ∨ y ≥ 15`) fails,
and any other character is ignored.  The NUL terminator is the end of
the list. -/
def parseGo : List Char → Nat → Nat → Grid → Option Grid
  | [], _, _, b => some b
  | c :: rest, x, y, b =>
    if c = ' ' then parseGo rest (x + 1) y b
    else if c = '\n' then parseGo rest 1 (y + 1) b
    else
      match shapeCode c with
      | some s => if 15 ≤ x ∨ 15 ≤ y then none else parseGo rest (x + 1) y (update2 b x y s)
      | none => parseGo rest x y b

/-- `il_problem_parse` from infiniteloop.c: the board starts all zero. -/
def il_problem_parse (l : List Char) : Option Grid :=
  parseGo l 1 1 fun _ _ => 0

/-- Cursor movement of one input character (used to state where the
parser places each piece). -/
def cursorStep (xy : Nat × Nat) (c : Char) : Nat × Nat :=
  if c = ' ' then (xy.1 + 1, xy.2)
  else if c = '\n' then (1, xy.2 + 1)
  else
    match shapeCode c with
    | some _ => (xy.1 + 1, xy.2)
    | none => xy

/-- Cursor position after consuming a prefix of the input. -/
def cursorFrom (xy : Nat × Nat) (l : List Char) : Nat × Nat :=
  l.foldl cursorStep xy

/-- The placements the parser performs: each shape character paired with
the cursor position (and shape code) at which it is written. -/
def placements : List Char → Nat × Nat → List ((Nat × Nat) × Nat)
  | [], _ => []
  | c :: rest, xy =>
    if c = ' ' then placements rest (xy.1 + 1, xy.2)
    else if c = '\n' then placements rest (1, xy.2 + 1)
    else
      match shapeCode c with
      | some s => ((xy.1, xy.2), s) :: placements rest (xy.1 + 1, xy.2)
      | none => placements rest xy

/-- Replay a list of placements onto a board. -/
def applyPs (ps : List ((Nat × Nat) × Nat)) (b : Grid) : Grid :=
  ps.foldl (fun g q => update2 g q.1.1 q.1.2 q.2) b

/-- The value left at `(a, d)` after a list of placements, starting from
`v0`. -/
def lookupPs (ps : List ((Nat × Nat) × Nat)) (a d v0 : Nat) : Nat :=
  ps.foldl (fun acc q => if a = q.1.1 ∧ d = q.1.2 then q.2 else acc) v0

/-- Byte length of a rendered string (UTF-8, as `strlen` measures it). -/
def strBytes (l : List Char) : Nat :=
  (l.map Char.utf8Size).sum

/-- The output state of `il_solution_print`: the bytes written so far,
the remaining buffer space (the NUL terminator always fits in the one
byte kept in reserve), and the cursor position. -/
structure PBuf where
  buf : List Char
  rem : Nat
  posx : Nat
  posy : Nat

/-- `putstr` from infiniteloop.c: append a string if it fits
(`inlen >= *outlen` fails), leaving room for the NUL. -/
def putstr (b : PBuf) (tok : List Char) : Option PBuf :=
  if b.rem ≤ strBytes tok then none
  else some ⟨b.buf ++ tok, b.rem - strBytes tok, b.posx, b.posy⟩

/-- A `while` loop emitting `k` copies of one token. -/
def emitRun (tok : List Char) : Nat → PBuf → Option PBuf
  | 0, b => some b
  | k + 1, b =>
    match putstr b tok with
    | none => none
    | some b2 => emitRun tok k b2

/-- `whitespace` from infiniteloop.c: newlines until row `y` is reached
(each resetting the column), then spaces until column `x`. -/
def whitespace (b : PBuf) (x y : Nat) : Option PBuf :=
  match emitRun ['\n'] (y - b.posy) b with
  | none => none
  | some b1 =>
    let px := if y - b.posy = 0 then b.posx else 0
    match emitRun [' '] (x - px) b1 with
    | none => none
    | some b2 => some ⟨b2.buf, b2.rem, px + (x - px), b.posy + (y - b.posy)⟩

/-- The `cells` table of box-drawing characters, indexed by the 4-bit
mask of outgoing edges. -/
def cellsTok (i : Nat) : List Char :=
  match i with
  | 1 => ['╵']
  | 2 => ['╶']
  | 3 => ['╰']
  | 4 => ['╷']
  | 5 => ['│']
  | 6 => ['╭']
  | 7 => ['├']
  | 8 => ['╴']
  | 9 => ['╯']
  | 10 => ['─']
  | 11 => ['┴']
  | 12 => ['╮']
  | 13 => ['┤']
  | 14 => ['┬']
  | 15 => ['┼']
  | _ => []

/-- The outgoing-edge mask of the rendered cell at `(x, y)`. -/
def edgeIdx (s : Sol) (x y : Nat) : Nat :=
  (if 0 < y ∧ s.vertical x (y - 1) = true then 1 else 0) |||
    (if x < 13 ∧ s.horizontal x y = true then 2 else 0) |||
    (if y < 13 ∧ s.vertical x y = true then 4 else 0) |||
    (if 0 < x ∧ s.horizontal (x - 1) y = true then 8 else 0)

/-- The cell-printing `for x` loop of `il_solution_print`. -/
def cellLoop (s : Sol) (y : Nat) : List Nat → PBuf → Option PBuf
  | [], b => some b
  | x :: rest, b =>
    let idx := edgeIdx s x y
    if idx ≠ 0 then
      match whitespace b (2 * x) (2 * y) with
      | none => none
      | some b1 =>
        match putstr b1 (cellsTok idx) with
        | none => none
        | some b2 =>
          let b3 : PBuf := ⟨b2.buf, b2.rem, b2.posx + 1, b2.posy⟩
          if x < 13 ∧ s.horizontal x y = true then
            match putstr b3 ['─'] with
            | none => none
            | some b4 => cellLoop s y rest ⟨b4.buf, b4.rem, b4.posx + 1, b4.posy⟩
          else cellLoop s y rest b3
    else cellLoop s y rest b

/-- The vertical-edge `for x` loop of `il_solution_print`. -/
def vertLoop (s : Sol) (y : Nat) : List Nat → PBuf → Option PBuf
  | [], b => some b
  | x :: rest, b =>
    if s.vertical x y then
      match whitespace b (2 * x) (2 * y + 1) with
      | none => none
      | some b1 =>
        match putstr b1 ['│'] with
        | none => none
        | some b2 => vertLoop s y rest ⟨b2.buf, b2.rem, b2.posx + 1, b2.posy⟩
    else vertLoop s y rest b

/-- The outer `for y` loop of `il_solution_print`. -/
def rowLoop (s : Sol) : List Nat → PBuf → Option PBuf
  | [], b => some b
  | y :: rest, b =>
    match cellLoop s y (List.range 14) b with
    | none => none
    | some b1 =>
      if y < 13 then
        match vertLoop s y (List.range 14) b1 with
        | none => none
        | some b2 => rowLoop s rest b2
      else rowLoop s rest b1

/-- `il_solution_print` from infiniteloop.c: `none` is a render-buffer
overflow (or a zero-length buffer); on success the written bytes are
returned. -/
def il_solution_print (s : Sol) (outlen : Nat) : Option (List Char) :=
  if outlen = 0 then none
  else
    match rowLoop s (List.range 14) ⟨[], outlen, 0, 0⟩ with
    | none => none
    | some b => some b.buf

/-- C5: for every 4-bit shape code `a` and every quarter-turn count
`i < 4`, the source's `rotate a (1 <<< i)` — the fused
`((a*b) | (a*b) >> 4) & 0xf` with a one-hot `b` — equals the cyclic
left rotation of `a` by `i` positions within the low 4 bits. -/
theorem rotate_eq_cyclicRotL4 (a i : Nat) (ha : a < 16) (hi : i < 4) :
    rotate a (1 <<< i) = cyclicRotL4 a i := by
  have hgen : ∀ a < 16, ∀ i < 4, rotate a (1 <<< i) = cyclicRotL4 a i := by decide
  exact hgen a ha i hi

/-- Witness for C5 at `a = 0xb`, `i = 3`. -/
theorem rotate_eq_cyclicRotL4_witness :
    rotate 11 (1 <<< 3) = cyclicRotL4 11 3 :=
  rotate_eq_cyclicRotL4 11 3 (by decide) (by decide)

/-- C6: for all 4-bit values `a` and `b`, the fused `fanout a b` equals
the naive union `rotate(a,b&1) | rotate(a,b&2) | rotate(a,b&4) |
rotate(a,b&8)` of the rotations selected by the options mask `b`. -/
theorem fanout_eq_union (a b : Nat) (ha : a < 16) (hb : b < 16) :
    fanout a b =
      rotate a (b &&& 1) ||| rotate a (b &&& 2) ||| rotate a (b &&& 4) ||| rotate a (b &&& 8) := by
  have hgen : ∀ a < 16, ∀ b < 16, fanout a b =
      rotate a (b &&& 1) ||| rotate a (b &&& 2) ||| rotate a (b &&& 4) ||| rotate a (b &&& 8) := by
    decide
  exact hgen a ha b hb

/-- Witness for C6 at `a = 0x7`, `b = 0xd`. -/
theorem fanout_eq_union_witness :
    fanout 7 13 =
      rotate 7 (13 &&& 1) ||| rotate 7 (13 &&& 2) ||| rotate 7 (13 &&& 4) ||| rotate 7 (13 &&& 8) :=
  fanout_eq_union 7 13 (by decide) (by decide)

/-- C8: `il_solve` seeds the initial options exactly by symmetry class:
empty (0x0) and cross (0xf) get 0x1; any other shape with
`shape >> 2 == shape & 0x3` — the straight 0x5 (and only 0x5 and 0xa
among 4-bit codes) — gets 0x3; every remaining shape, including the
dead-end 0x1, the corner 0x3 and the T-junction 0x7, gets 0xf; border
cells (shape 0) get 0x1. -/
theorem il_solve_initial_options (p : Grid) (x y : Nat) (h : p x y < 16) :
    (p x y = 0 ∨ p x y = 15 → initOptions p x y = 1) ∧
    (p x y ≠ 0 → p x y ≠ 15 → p x y >>> 2 = p x y &&& 3 → initOptions p x y = 3) ∧
    (p x y ≠ 0 → p x y ≠ 15 → p x y >>> 2 = p x y &&& 3 → p x y = 5 ∨ p x y = 10) ∧
    (p x y ≠ 0 → p x y ≠ 15 → p x y >>> 2 ≠ p x y &&& 3 → initOptions p x y = 15) ∧
    (p x y = 1 ∨ p x y = 3 ∨ p x y = 7 → initOptions p x y = 15) ∧
    (p x y = 5 → initOptions p x y = 3) := by
  have h1 : ∀ v < 16, (v = 0 ∨ v = 15 → initOpt v = 1) := by decide
  have h2 : ∀ v < 16, (v ≠ 0 → v ≠ 15 → v >>> 2 = v &&& 3 → initOpt v = 3) := by decide
  have h3 : ∀ v < 16, (v ≠ 0 → v ≠ 15 → v >>> 2 = v &&& 3 → v = 5 ∨ v = 10) := by decide
  have h4 : ∀ v < 16, (v ≠ 0 → v ≠ 15 → v >>> 2 ≠ v &&& 3 → initOpt v = 15) := by decide
  have h5 : ∀ v < 16, (v = 1 ∨ v = 3 ∨ v = 7 → initOpt v = 15) := by decide
  have h6 : ∀ v < 16, (v = 5 → initOpt v = 3) := by decide
  exact ⟨h1 _ h, h2 _ h, h3 _ h, h4 _ h, h5 _ h, h6 _ h⟩

/-- Witness for C8 on the grid that is 5 everywhere, at the cell (2, 3). -/
theorem il_solve_initial_options_witness :
    ((fun _ _ => 5 : Grid) 2 3 = 0 ∨ (fun _ _ => 5 : Grid) 2 3 = 15 →
      initOptions (fun _ _ => 5) 2 3 = 1) ∧
    ((fun _ _ => 5 : Grid) 2 3 ≠ 0 → (fun _ _ => 5 : Grid) 2 3 ≠ 15 →
      (fun _ _ => 5 : Grid) 2 3 >>> 2 = (fun _ _ => 5 : Grid) 2 3 &&& 3 →
      initOptions (fun _ _ => 5) 2 3 = 3) ∧
    ((fun _ _ => 5 : Grid) 2 3 ≠ 0 → (fun _ _ => 5 : Grid) 2 3 ≠ 15 →
      (fun _ _ => 5 : Grid) 2 3 >>> 2 = (fun _ _ => 5 : Grid) 2 3 &&& 3 →
      (fun _ _ => 5 : Grid) 2 3 = 5 ∨ (fun _ _ => 5 : Grid) 2 3 = 10) ∧
    ((fun _ _ => 5 : Grid) 2 3 ≠ 0 → (fun _ _ => 5 : Grid) 2 3 ≠ 15 →
      (fun _ _ => 5 : Grid) 2 3 >>> 2 ≠ (fun _ _ => 5 : Grid) 2 3 &&& 3 →
      initOptions (fun _ _ => 5) 2 3 = 15) ∧
    ((fun _ _ => 5 : Grid) 2 3 = 1 ∨ (fun _ _ => 5 : Grid) 2 3 = 3 ∨
      (fun _ _ => 5 : Grid) 2 3 = 7 → initOptions (fun _ _ => 5) 2 3 = 15) ∧
    ((fun _ _ => 5 : Grid) 2 3 = 5 → initOptions (fun _ _ => 5) 2 3 = 3) :=
  il_solve_initial_options (fun _ _ => 5) 2 3 (by decide)

/-- Splitting "some split of `c0 :: rest` satisfies `P`" into the case
where the split is at the head and the case inside the tail. -/
theorem split_cons_iff (c0 : Char) (rest : List Char) (P : List Char → Char → Prop) :
    (∃ pre c suf, (c0 :: rest : List Char) = pre ++ c :: suf ∧ P pre c) ↔
      P [] c0 ∨ ∃ pre c suf, rest = pre ++ c :: suf ∧ P (c0 :: pre) c := by
  constructor
  · rintro ⟨pre, c, suf, heq, hP⟩
    cases pre with
    | nil =>
      simp only [List.nil_append, List.cons.injEq] at heq
      exact Or.inl (by rw [heq.1]; exact hP)
    | cons p pre2 =>
      simp only [List.cons_append, List.cons.injEq] at heq
      exact Or.inr ⟨pre2, c, suf, heq.2, by rw [heq.1]; exact hP⟩
  · rintro (h | ⟨pre, c, suf, heq, hP⟩)
    · exact ⟨[], c0, rest, rfl, h⟩
    · exact ⟨c0 :: pre, c, suf, by rw [heq]; rfl, hP⟩

theorem cursorFrom_cons (xy : Nat × Nat) (c : Char) (l : List Char) :
    cursorFrom xy (c :: l) = cursorFrom (cursorStep xy c) l :=
  rfl

theorem shapeCode_ne_space {c : Char} {s : Nat} (h : shapeCode c = some s) : c ≠ ' ' := by
  intro hc
  rw [hc] at h
  simp [shapeCode] at h

theorem shapeCode_ne_newline {c : Char} {s : Nat} (h : shapeCode c = some s) : c ≠ '\n' := by
  intro hc
  rw [hc] at h
  simp [shapeCode] at h

theorem cursorStep_space (xy : Nat × Nat) : cursorStep xy ' ' = (xy.1 + 1, xy.2) := by
  simp [cursorStep]

theorem cursorStep_newline (xy : Nat × Nat) : cursorStep xy '\n' = (1, xy.2 + 1) := by
  simp [cursorStep]

theorem cursorStep_shape {c : Char} {s : Nat} (xy : Nat × Nat) (h : shapeCode c = some s) :
    cursorStep xy c = (xy.1 + 1, xy.2) := by
  simp [cursorStep, shapeCode_ne_space h, shapeCode_ne_newline h, h]

theorem cursorStep_other {c : Char} (xy : Nat × Nat) (h : shapeCode c = none)
    (h1 : c ≠ ' ') (h2 : c ≠ '\n') : cursorStep xy c = xy := by
  simp [cursorStep, h1, h2, h]

theorem parseGo_space (rest : List Char) (x y : Nat) (b : Grid) :
    parseGo (' ' :: rest) x y b = parseGo rest (x + 1) y b := by
  simp [parseGo]

theorem parseGo_newline (rest : List Char) (x y : Nat) (b : Grid) :
    parseGo ('\n' :: rest) x y b = parseGo rest 1 (y + 1) b := by
  simp [parseGo]

theorem parseGo_shape {c : Char} {s : Nat} (hc : shapeCode c = some s) (rest : List Char)
    (x y : Nat) (b : Grid) :
    parseGo (c :: rest) x y b =
      if 15 ≤ x ∨ 15 ≤ y then none else parseGo rest (x + 1) y (update2 b x y s) := by
  simp [parseGo, shapeCode_ne_space hc, shapeCode_ne_newline hc, hc]

theorem parseGo_other {c : Char} (hc : shapeCode c = none) (h1 : c ≠ ' ') (h2 : c ≠ '\n')
    (rest : List Char) (x y : Nat) (b : Grid) :
    parseGo (c :: rest) x y b = parseGo rest x y b := by
  simp [parseGo, h1, h2, hc]

theorem placements_space (rest : List Char) (xy : Nat × Nat) :
    placements (' ' :: rest) xy = placements rest (xy.1 + 1, xy.2) := by
  simp [placements]

theorem placements_newline (rest : List Char) (xy : Nat × Nat) :
    placements ('\n' :: rest) xy = placements rest (1, xy.2 + 1) := by
  simp [placements]

theorem placements_shape {c : Char} {s : Nat} (hc : shapeCode c = some s) (rest : List Char)
    (xy : Nat × Nat) :
    placements (c :: rest) xy = ((xy.1, xy.2), s) :: placements rest (xy.1 + 1, xy.2) := by
  simp [placements, shapeCode_ne_space hc, shapeCode_ne_newline hc, hc]

theorem placements_other {c : Char} (hc : shapeCode c = none) (h1 : c ≠ ' ') (h2 : c ≠ '\n')
    (rest : List Char) (xy : Nat × Nat) :
    placements (c :: rest) xy = placements rest xy := by
  simp [placements, h1, h2, hc]

/-- The parsing loop fails exactly when some shape character is reached
with the cursor outside the interior. -/
theorem parseGo_eq_none_iff (l : List Char) : ∀ (x y : Nat) (b : Grid),
    parseGo l x y b = none ↔
      ∃ pre c suf, l = pre ++ c :: suf ∧ (shapeCode c).isSome = true ∧
        (15 ≤ (cursorFrom (x, y) pre).1 ∨ 15 ≤ (cursorFrom (x, y) pre).2) := by
  induction l with
  | nil =>
    intro x y b
    simp [parseGo]
  | cons c0 rest ih =>
    intro x y b
    rw [split_cons_iff c0 rest fun pre c => (shapeCode c).isSome = true ∧
      (15 ≤ (cursorFrom (x, y) pre).1 ∨ 15 ≤ (cursorFrom (x, y) pre).2)]
    by_cases h1 : c0 = ' '
    · subst h1
      rw [parseGo_space, ih (x + 1) y b]
      simp [shapeCode, cursorFrom_cons, cursorStep_space]
    · by_cases h2 : c0 = '\n'
      · subst h2
        rw [parseGo_newline, ih 1 (y + 1) b]
        simp [shapeCode, cursorFrom_cons, cursorStep_newline]
      · cases hc : shapeCode c0 with
        | some s =>
          rw [parseGo_shape hc]
          by_cases hr : 15 ≤ x ∨ 15 ≤ y
          · rw [if_pos hr]
            constructor
            · intro _
              exact Or.inl ⟨rfl, hr⟩
            · intro _
              rfl
          · rw [if_neg hr, ih (x + 1) y (update2 b x y s)]
            constructor
            · intro h
              refine Or.inr ?_
              simpa [cursorFrom_cons, cursorStep_shape _ hc] using h
            · rintro (⟨_, hbad⟩ | h)
              · exact absurd hbad hr
              · simpa [cursorFrom_cons, cursorStep_shape _ hc] using h
        | none =>
          rw [parseGo_other hc h1 h2, ih x y b]
          simp [hc, cursorFrom_cons, cursorStep_other _ hc h1 h2]

theorem applyPs_cons (q : (Nat × Nat) × Nat) (ps : List ((Nat × Nat) × Nat)) (b : Grid) :
    applyPs (q :: ps) b = applyPs ps (update2 b q.1.1 q.1.2 q.2) :=
  rfl

theorem lookupPs_cons (q : (Nat × Nat) × Nat) (ps : List ((Nat × Nat) × Nat)) (a d v0 : Nat) :
    lookupPs (q :: ps) a d v0 = lookupPs ps a d (if a = q.1.1 ∧ d = q.1.2 then q.2 else v0) :=
  rfl

/-- On success, the parsing loop returns exactly its accumulator with
the placements replayed on top. -/
theorem parseGo_eq_some (l : List Char) : ∀ (x y : Nat) (b b' : Grid),
    parseGo l x y b = some b' → b' = applyPs (placements l (x, y)) b := by
  induction l with
  | nil =>
    intro x y b b' h
    simp only [parseGo, Option.some.injEq] at h
    rw [← h]
    rfl
  | cons c0 rest ih =>
    intro x y b b' h
    by_cases h1 : c0 = ' '
    · subst h1
      rw [parseGo_space] at h
      rw [placements_space]
      exact ih (x + 1) y b b' h
    · by_cases h2 : c0 = '\n'
      · subst h2
        rw [parseGo_newline] at h
        rw [placements_newline]
        exact ih 1 (y + 1) b b' h
      · cases hc : shapeCode c0 with
        | some s =>
          rw [parseGo_shape hc] at h
          by_cases hr : 15 ≤ x ∨ 15 ≤ y
          · rw [if_pos hr] at h
            exact absurd h (by simp)
          · rw [if_neg hr] at h
            rw [placements_shape hc, applyPs_cons]
            exact ih (x + 1) y (update2 b x y s) b' h
        | none =>
          rw [parseGo_other hc h1 h2] at h
          rw [placements_other hc h1 h2]
          exact ih x y b b' h

theorem applyPs_eq_lookupPs (ps : List ((Nat × Nat) × Nat)) : ∀ (b : Grid) (a d : Nat),
    applyPs ps b a d = lookupPs ps a d (b a d) := by
  induction ps with
  | nil => intro b a d; rfl
  | cons q ps ih =>
    intro b a d
    rw [applyPs_cons, lookupPs_cons, ih]
    rfl

/-- Placement positions never precede the current cursor in (row,
column) lexicographic order. -/
theorem placements_mono (l : List Char) : ∀ (x y : Nat) (q : (Nat × Nat) × Nat),
    q ∈ placements l (x, y) → y < q.1.2 ∨ (y = q.1.2 ∧ x ≤ q.1.1) := by
  induction l with
  | nil => intro x y q h; simp [placements] at h
  | cons c0 rest ih =>
    intro x y q h
    by_cases h1 : c0 = ' '
    · subst h1
      rw [placements_space] at h
      rcases ih (x + 1) y q h with h' | ⟨h', h''⟩
      · exact Or.inl h'
      · exact Or.inr ⟨h', by omega⟩
    · by_cases h2 : c0 = '\n'
      · subst h2
        rw [placements_newline] at h
        rcases ih 1 (y + 1) q h with h' | ⟨h', _⟩
        · exact Or.inl (by omega)
        · exact Or.inl (by omega)
      · cases hc : shapeCode c0 with
        | some s =>
          rw [placements_shape hc] at h
          rcases List.mem_cons.mp h with h' | h'
          · subst h'
            exact Or.inr ⟨rfl, le_refl x⟩
          · rcases ih (x + 1) y q h' with h'' | ⟨h'', h3⟩
            · exact Or.inl h''
            · exact Or.inr ⟨h'', by omega⟩
        | none =>
          rw [placements_other hc h1 h2] at h
          exact ih x y q h

/-- Each board position is written by at most one placement. -/
theorem placements_unique (l : List Char) : ∀ (x y a d v v' : Nat),
    ((a, d), v) ∈ placements l (x, y) → ((a, d), v') ∈ placements l (x, y) → v = v' := by
  induction l with
  | nil => intro x y a d v v' h; simp [placements] at h
  | cons c0 rest ih =>
    intro x y a d v v' h h'
    by_cases h1 : c0 = ' '
    · subst h1
      rw [placements_space] at h h'
      exact ih (x + 1) y a d v v' h h'
    · by_cases h2 : c0 = '\n'
      · subst h2
        rw [placements_newline] at h h'
        exact ih 1 (y + 1) a d v v' h h'
      · cases hc : shapeCode c0 with
        | some s =>
          rw [placements_shape hc] at h h'
          rcases List.mem_cons.mp h with g | g <;> rcases List.mem_cons.mp h' with g' | g'
          · rw [Prod.mk.injEq] at g g'
            rw [g.2, g'.2]
          · exfalso
            rw [Prod.mk.injEq, Prod.mk.injEq] at g
            rcases placements_mono rest (x + 1) y _ g' with hb | ⟨_, hb⟩ <;>
              simp only [← g.1.1, ← g.1.2] at hb <;> omega
          · exfalso
            rw [Prod.mk.injEq, Prod.mk.injEq] at g'
            rcases placements_mono rest (x + 1) y _ g with hb | ⟨_, hb⟩ <;>
              simp only [← g'.1.1, ← g'.1.2] at hb <;> omega
          · exact ih (x + 1) y a d v v' g g'
        | none =>
          rw [placements_other hc h1 h2] at h h'
          exact ih x y a d v v' h h'

theorem lookupPs_of_not_mem (ps : List ((Nat × Nat) × Nat)) : ∀ (a d v0 : Nat),
    (∀ v, ((a, d), v) ∉ ps) → lookupPs ps a d v0 = v0 := by
  induction ps with
  | nil => intro a d v0 _; rfl
  | cons q ps ih =>
    intro a d v0 hnm
    rw [lookupPs_cons]
    have hne : ¬(a = q.1.1 ∧ d = q.1.2) := by
      rintro ⟨ha, hd⟩
      apply hnm q.2
      have hq : ((a, d), q.2) = q := by
        rw [ha, hd]
      rw [hq]
      exact List.mem_cons_self _ _
    rw [if_neg hne]
    exact ih a d v0 fun v hv => hnm v (List.mem_cons_of_mem q hv)

theorem lookupPs_of_mem (ps : List ((Nat × Nat) × Nat)) : ∀ (a d v : Nat),
    ((a, d), v) ∈ ps → (∀ v', ((a, d), v') ∈ ps → v' = v) →
    ∀ v0, lookupPs ps a d v0 = v := by
  induction ps with
  | nil => intro a d v h; simp at h
  | cons q ps ih =>
    intro a d v hm huniq v0
    rw [lookupPs_cons]
    by_cases hq : a = q.1.1 ∧ d = q.1.2
    · rw [if_pos hq]
      have hqv : q.2 = v := by
        apply huniq
        have : q = ((a, d), q.2) := by
          rw [Prod.ext_iff, Prod.ext_iff]
          exact ⟨⟨hq.1.symm, hq.2.symm⟩, rfl⟩
        rw [← this]
        exact List.mem_cons_self _ _
      by_cases hmem : ∃ v', ((a, d), v') ∈ ps
      · rcases hmem with ⟨v', hv'⟩
        have h1 : v' = v := huniq v' (List.mem_cons_of_mem q hv')
        subst h1
        exact ih a d v' hv' (fun w hw => huniq w (List.mem_cons_of_mem q hw)) q.2
      · rw [hqv]
        exact lookupPs_of_not_mem ps a d v fun w hw => hmem ⟨w, hw⟩
    · rw [if_neg hq]
      have hm' : ((a, d), v) ∈ ps := by
        rcases List.mem_cons.mp hm with h | h
        · exfalso
          apply hq
          rw [← h]
          exact ⟨rfl, rfl⟩
        · exact h
      exact ih a d v hm' (fun w hw => huniq w (List.mem_cons_of_mem q hw)) v0

/-- C9: `il_problem_parse` returns false exactly when some shape
character (`1 C S 3 4`) occurs while the cursor is outside the interior
(column ≥ 15 or row ≥ 15); every character other than the five shape
characters, space, newline and the terminating NUL is silently ignored
(the cursor and board are untouched); and on success, each cell where a
shape character was placed holds that shape's code while every other
cell holds 0. -/
theorem il_problem_parse_spec (l : List Char) :
    (il_problem_parse l = none ↔
      ∃ pre c suf, l = pre ++ c :: suf ∧ (shapeCode c).isSome = true ∧
        (15 ≤ (cursorFrom (1, 1) pre).1 ∨ 15 ≤ (cursorFrom (1, 1) pre).2)) ∧
    (∀ (c : Char) (rest : List Char) (x y : Nat) (b : Grid),
      c ≠ ' ' → c ≠ '\n' → shapeCode c = none →
      parseGo (c :: rest) x y b = parseGo rest x y b ∧ cursorStep (x, y) c = (x, y)) ∧
    (∀ b', il_problem_parse l = some b' →
      (∀ a d v, ((a, d), v) ∈ placements l (1, 1) → b' a d = v) ∧
      (∀ a d, (∀ v, ((a, d), v) ∉ placements l (1, 1)) → b' a d = 0)) := by
  refine ⟨parseGo_eq_none_iff l 1 1 _, ?_, ?_⟩
  · intro c rest x y b h1 h2 hc
    exact ⟨parseGo_other hc h1 h2 rest x y b, cursorStep_other _ hc h1 h2⟩
  · intro b' h
    have hb : b' = applyPs (placements l (1, 1)) fun _ _ => 0 := parseGo_eq_some l 1 1 _ b' h
    constructor
    · intro a d v hv
      rw [hb, applyPs_eq_lookupPs]
      exact lookupPs_of_mem _ a d v hv
        (fun v' hv' => placements_unique l 1 1 a d v' v hv' hv) 0
    · intro a d hnm
      rw [hb, applyPs_eq_lookupPs]
      exact lookupPs_of_not_mem _ a d 0 hnm

/-- Witness for C9 on the input "1x4" (an ignored character between two
shape characters). -/
theorem il_problem_parse_spec_witness :
    ((il_problem_parse ['1', 'x', '4'] = none ↔
      ∃ pre c suf, ['1', 'x', '4'] = pre ++ c :: suf ∧ (shapeCode c).isSome = true ∧
        (15 ≤ (cursorFrom (1, 1) pre).1 ∨ 15 ≤ (cursorFrom (1, 1) pre).2)) ∧
    (∀ (c : Char) (rest : List Char) (x y : Nat) (b : Grid),
      c ≠ ' ' → c ≠ '\n' → shapeCode c = none →
      parseGo (c :: rest) x y b = parseGo rest x y b ∧ cursorStep (x, y) c = (x, y)) ∧
    (∀ b', il_problem_parse ['1', 'x', '4'] = some b' →
      (∀ a d v, ((a, d), v) ∈ placements ['1', 'x', '4'] (1, 1) → b' a d = v) ∧
      (∀ a d, (∀ v, ((a, d), v) ∉ placements ['1', 'x', '4'] (1, 1)) → b' a d = 0))) :=
  il_problem_parse_spec ['1', 'x', '4']

theorem strBytes_append (l1 l2 : List Char) :
    strBytes (l1 ++ l2) = strBytes l1 + strBytes l2 := by
  simp [strBytes]

theorem putstr_inv {n : Nat} {b b2 : PBuf} {tok : List Char}
    (hb : strBytes b.buf + b.rem = n) (h : putstr b tok = some b2) :
    strBytes b2.buf + b2.rem = n ∧ 1 ≤ b2.rem := by
  by_cases hle : b.rem ≤ strBytes tok
  · rw [putstr, if_pos hle] at h
    exact absurd h (by simp)
  · rw [putstr, if_neg hle] at h
    have h2 := Option.some.inj h
    rw [← h2]
    simp only [strBytes_append]
    omega

theorem emitRun_inv {n : Nat} {tok : List Char} : ∀ (k : Nat) {b b2 : PBuf},
    strBytes b.buf + b.rem = n → 1 ≤ b.rem → emitRun tok k b = some b2 →
    strBytes b2.buf + b2.rem = n ∧ 1 ≤ b2.rem := by
  intro k
  induction k with
  | zero =>
    intro b b2 hb hr h
    have h2 := Option.some.inj h
    rw [← h2]
    exact ⟨hb, hr⟩
  | succ k ih =>
    intro b b2 hb hr h
    rw [emitRun] at h
    cases hp : putstr b tok with
    | none => rw [hp] at h; exact absurd h (by simp)
    | some b1 =>
      rw [hp] at h
      have h1 := putstr_inv hb hp
      exact ih h1.1 h1.2 h

theorem whitespace_inv {n : Nat} {b b2 : PBuf} {x y : Nat}
    (hb : strBytes b.buf + b.rem = n) (hr : 1 ≤ b.rem) (h : whitespace b x y = some b2) :
    strBytes b2.buf + b2.rem = n ∧ 1 ≤ b2.rem := by
  rw [whitespace] at h
  cases h1 : emitRun ['\n'] (y - b.posy) b with
  | none => rw [h1] at h; exact absurd h (by simp)
  | some c1 =>
    rw [h1] at h
    have i1 := emitRun_inv _ hb hr h1
    cases h2 : emitRun [' '] (x - if y - b.posy = 0 then b.posx else 0) c1 with
    | none => simp only [h2] at h; exact absurd h (by simp)
    | some c2 =>
      simp only [h2] at h
      have i2 := emitRun_inv _ i1.1 i1.2 h2
      have h3 := Option.some.inj h
      rw [← h3]
      exact i2

theorem cellLoop_inv {n : Nat} {s : Sol} {y : Nat} : ∀ (l : List Nat) {b b2 : PBuf},
    strBytes b.buf + b.rem = n → 1 ≤ b.rem → cellLoop s y l b = some b2 →
    strBytes b2.buf + b2.rem = n ∧ 1 ≤ b2.rem := by
  intro l
  induction l with
  | nil =>
    intro b b2 hb hr h
    have h2 := Option.some.inj h
    rw [← h2]
    exact ⟨hb, hr⟩
  | cons x rest ih =>
    intro b b2 hb hr h
    rw [cellLoop] at h
    by_cases hi : edgeIdx s x y ≠ 0
    · rw [if_pos hi] at h
      cases h1 : whitespace b (2 * x) (2 * y) with
      | none => rw [h1] at h; exact absurd h (by simp)
      | some c1 =>
        simp only [h1] at h
        have i1 := whitespace_inv hb hr h1
        cases h2 : putstr c1 (cellsTok (edgeIdx s x y)) with
        | none => simp only [h2] at h; exact absurd h (by simp)
        | some c2 =>
          simp only [h2] at h
          have i2 := putstr_inv i1.1 h2
          by_cases hh : x < 13 ∧ s.horizontal x y = true
          · rw [if_pos hh] at h
            cases h3 : putstr (⟨c2.buf, c2.rem, c2.posx + 1, c2.posy⟩ : PBuf) ['─'] with
            | none => simp only [h3] at h; exact absurd h (by simp)
            | some c3 =>
              simp only [h3] at h
              have i3 : strBytes c3.buf + c3.rem = n ∧ 1 ≤ c3.rem := by
                refine putstr_inv ?_ h3
                exact i2.1
              refine ih ?_ ?_ h
              · exact i3.1
              · exact i3.2
          · rw [if_neg hh] at h
            refine ih ?_ ?_ h
            · exact i2.1
            · exact i2.2
    · rw [if_neg hi] at h
      exact ih hb hr h

theorem vertLoop_inv {n : Nat} {s : Sol} {y : Nat} : ∀ (l : List Nat) {b b2 : PBuf},
    strBytes b.buf + b.rem = n → 1 ≤ b.rem → vertLoop s y l b = some b2 →
    strBytes b2.buf + b2.rem = n ∧ 1 ≤ b2.rem := by
  intro l
  induction l with
  | nil =>
    intro b b2 hb hr h
    have h2 := Option.some.inj h
    rw [← h2]
    exact ⟨hb, hr⟩
  | cons x rest ih =>
    intro b b2 hb hr h
    rw [vertLoop] at h
    by_cases hv : s.vertical x y = true
    · rw [if_pos hv] at h
      cases h1 : whitespace b (2 * x) (2 * y + 1) with
      | none => rw [h1] at h; exact absurd h (by simp)
      | some c1 =>
        simp only [h1] at h
        have i1 := whitespace_inv hb hr h1
        cases h2 : putstr c1 ['│'] with
        | none => simp only [h2] at h; exact absurd h (by simp)
        | some c2 =>
          simp only [h2] at h
          have i2 := putstr_inv i1.1 h2
          refine ih ?_ ?_ h
          · exact i2.1
          · exact i2.2
    · rw [if_neg hv] at h
      exact ih hb hr h

theorem rowLoop_inv {n : Nat} {s : Sol} : ∀ (l : List Nat) {b b2 : PBuf},
    strBytes b.buf + b.rem = n → 1 ≤ b.rem → rowLoop s l b = some b2 →
    strBytes b2.buf + b2.rem = n ∧ 1 ≤ b2.rem := by
  intro l
  induction l with
  | nil =>
    intro b b2 hb hr h
    have h2 := Option.some.inj h
    rw [← h2]
    exact ⟨hb, hr⟩
  | cons y rest ih =>
    intro b b2 hb hr h
    rw [rowLoop] at h
    cases h1 : cellLoop s y (List.range 14) b with
    | none => rw [h1] at h; exact absurd h (by simp)
    | some c1 =>
      simp only [h1] at h
      have i1 := cellLoop_inv _ hb hr h1
      by_cases hy : y < 13
      · rw [if_pos hy] at h
        cases h2 : vertLoop s y (List.range 14) c1 with
        | none => simp only [h2] at h; exact absurd h (by simp)
        | some c2 =>
          simp only [h2] at h
          have i2 := vertLoop_inv _ i1.1 i1.2 h2
          exact ih i2.1 i2.2 h
      · rw [if_neg hy] at h
        exact ih i1.1 i1.2 h

/-- C10: `il_solution_print` fails on a zero-length buffer for every
solution, and whenever it succeeds the rendered string's byte length is
strictly below the supplied buffer length (the NUL terminator always
fits; a too-small buffer yields failure, never a truncated string). -/
theorem il_solution_print_spec :
    (∀ s : Sol, il_solution_print s 0 = none) ∧
    (∀ (s : Sol) (n : Nat) (out : List Char),
      il_solution_print s n = some out → strBytes out < n) := by
  constructor
  · intro s
    rfl
  · intro s n out h
    rw [il_solution_print] at h
    by_cases hn : n = 0
    · rw [if_pos hn] at h
      exact absurd h (by simp)
    · rw [if_neg hn] at h
      cases hr : rowLoop s (List.range 14) ⟨[], n, 0, 0⟩ with
      | none => rw [hr] at h; exact absurd h (by simp)
      | some b =>
        rw [hr] at h
        have hb0 : strBytes (⟨[], n, 0, 0⟩ : PBuf).buf + (⟨[], n, 0, 0⟩ : PBuf).rem = n := by
          simp [strBytes]
        have hr0 : 1 ≤ (⟨[], n, 0, 0⟩ : PBuf).rem := by
          show 1 ≤ n
          omega
        have hinv := rowLoop_inv (List.range 14) hb0 hr0 hr
        have h2 := Option.some.inj h
        obtain ⟨hA, hB⟩ := hinv
        rw [← h2]
        omega

/-- Witness for C10: the all-false solution fails in a 0-byte buffer and
renders as the empty string in a 1-byte buffer. -/
theorem il_solution_print_spec_witness :
    il_solution_print ⟨fun _ _ => false, fun _ _ => false⟩ 0 = none ∧
      strBytes [] < 1 :=
  ⟨il_solution_print_spec.1 ⟨fun _ _ => false, fun _ _ => false⟩,
    il_solution_print_spec.2 ⟨fun _ _ => false, fun _ _ => false⟩ 1 [] (by rfl)⟩

theorem and_pow_of_ne {v k : Nat} (h : v &&& 2 ^ k ≠ 0) : 2 ^ k &&& v = 2 ^ k := by
  rw [Nat.and_two_pow] at h
  rw [Nat.two_pow_and]
  cases ht : v.testBit k
  · rw [ht] at h
    simp at h
  · simp [ht]

theorem and_bit_of_ne {v i : Nat} (hi : i = 1 ∨ i = 2 ∨ i = 4 ∨ i = 8) (h : v &&& i ≠ 0) :
    i &&& v = i := by
  rcases hi with rfl | rfl | rfl | rfl
  · exact @and_pow_of_ne v 0 h
  · exact @and_pow_of_ne v 1 h
  · exact @and_pow_of_ne v 2 h
  · exact @and_pow_of_ne v 3 h

theorem or_submask {a b m : Nat} (ha : a &&& m = a) (hb : b &&& m = b) :
    (a ||| b) &&& m = a ||| b := by
  rw [Nat.and_distrib_right, ha, hb]

theorem stepOr_inv {v acc i : Nat} (cond : Bool)
    (hacc : acc &&& v = acc ∧ acc &&& 15 = acc)
    (hc : cond = true → v &&& i ≠ 0) (hi : i = 1 ∨ i = 2 ∨ i = 4 ∨ i = 8) :
    (if cond then acc ||| i else acc) &&& v = (if cond then acc ||| i else acc) ∧
      (if cond then acc ||| i else acc) &&& 15 = (if cond then acc ||| i else acc) := by
  cases cond
  · simpa using hacc
  · simp only [if_pos rfl]
    have h1 : i &&& v = i := and_bit_of_ne hi (hc rfl)
    have h2 : i &&& 15 = i := by rcases hi with rfl | rfl | rfl | rfl <;> decide
    exact ⟨or_submask hacc.1 h1, or_submask hacc.2 h2⟩

/-- The mask computed by the inner loop of `propagate` keeps only bits
of the old mask, and only low bits. -/
theorem newOptionsOf_submask (s v mbs mbc : Nat) :
    newOptionsOf s v mbs mbc &&& v = newOptionsOf s v mbs mbc ∧
      newOptionsOf s v mbs mbc &&& 15 = newOptionsOf s v mbs mbc := by
  have base : (0 : Nat) &&& v = 0 ∧ (0 : Nat) &&& 15 = 0 := ⟨Nat.zero_and v, Nat.zero_and 15⟩
  have g1 : (v &&& 1 != 0 && acceptBit s mbs mbc 1) = true → v &&& 1 ≠ 0 := by
    intro hb
    simp only [Bool.and_eq_true, bne_iff_ne, ne_eq] at hb
    exact hb.1
  have g2 : (v &&& 2 != 0 && acceptBit s mbs mbc 2) = true → v &&& 2 ≠ 0 := by
    intro hb
    simp only [Bool.and_eq_true, bne_iff_ne, ne_eq] at hb
    exact hb.1
  have g4 : (v &&& 4 != 0 && acceptBit s mbs mbc 4) = true → v &&& 4 ≠ 0 := by
    intro hb
    simp only [Bool.and_eq_true, bne_iff_ne, ne_eq] at hb
    exact hb.1
  have g8 : (v &&& 8 != 0 && acceptBit s mbs mbc 8) = true → v &&& 8 ≠ 0 := by
    intro hb
    simp only [Bool.and_eq_true, bne_iff_ne, ne_eq] at hb
    exact hb.1
  simp only [newOptionsOf]
  exact stepOr_inv _
    (stepOr_inv _
      (stepOr_inv _
        (stepOr_inv _ base g1 (Or.inl rfl)) g2 (Or.inr (Or.inl rfl)))
      g4 (Or.inr (Or.inr (Or.inl rfl))))
    g8 (Or.inr (Or.inr (Or.inr rfl)))

theorem newOptions_le (p o : Grid) (x y : Nat) : newOptions p o x y ≤ o x y := by
  have h := (newOptionsOf_submask (p x y) (o x y) (mbsAt p o x y) (mbcAt p o x y)).1
  have h2 : newOptionsOf (p x y) (o x y) (mbsAt p o x y) (mbcAt p o x y) &&& o x y ≤ o x y :=
    Nat.and_le_right
  rw [h] at h2
  exact h2

theorem newOptions_le_15 (p o : Grid) (x y : Nat) : newOptions p o x y ≤ 15 := by
  have h := (newOptionsOf_submask (p x y) (o x y) (mbsAt p o x y) (mbcAt p o x y)).2
  have h2 : newOptionsOf (p x y) (o x y) (mbsAt p o x y) (mbcAt p o x y) &&& 15 ≤ 15 :=
    Nat.and_le_right
  rw [h] at h2
  exact h2

theorem update2_self (o : Grid) (x y : Nat) : update2 o x y (o x y) = o := by
  funext a b
  rw [update2]
  split
  · next h => rw [h.1, h.2]
  · rfl

theorem update2_le {o : Grid} {x y v : Nat} (hv : v ≤ o x y) (a b : Nat) :
    update2 o x y v a b ≤ o a b := by
  rw [update2]
  split
  · next h => rw [h.1, h.2]; exact hv
  · exact Nat.le_refl _

theorem update2_at (o : Grid) (x y v : Nat) : update2 o x y v x y = v := by
  rw [update2, if_pos ⟨rfl, rfl⟩]

/-- A sweep that reports no change left the grid untouched and certifies
that every visited cell's mask is a fixed point of the cell update. -/
theorem sweepGo_nochange (p : Grid) : ∀ (l : List (Nat × Nat)) (o o2 : Grid) (ch : Bool),
    sweepGo p l o ch = some (o2, false) →
    ch = false ∧ o2 = o ∧ ∀ c ∈ l, newOptions p o c.1 c.2 = o c.1 c.2 := by
  intro l
  induction l with
  | nil =>
    intro o o2 ch h
    simp only [sweepGo, Option.some.injEq, Prod.mk.injEq] at h
    exact ⟨h.2, h.1.symm, by simp⟩
  | cons c rest ih =>
    intro o o2 ch h
    simp only [sweepGo] at h
    by_cases hno : newOptions p o c.1 c.2 = o c.1 c.2
    · rw [if_pos hno] at h
      have h2 := ih o o2 ch h
      refine ⟨h2.1, h2.2.1, ?_⟩
      intro c' hc'
      rcases List.mem_cons.mp hc' with rfl | hc'
      · exact hno
      · exact h2.2.2 c' hc'
    · rw [if_neg hno] at h
      by_cases h0 : newOptions p o c.1 c.2 = 0
      · rw [if_pos h0] at h
        exact absurd h (by simp)
      · rw [if_neg h0] at h
        have h2 := ih _ o2 true h
        exact absurd h2.1 (by simp)

/-- A sweep only shrinks masks, pointwise. -/
theorem sweepGo_le (p : Grid) : ∀ (l : List (Nat × Nat)) (o o2 : Grid) (ch ch2 : Bool),
    sweepGo p l o ch = some (o2, ch2) → ∀ a b, o2 a b ≤ o a b := by
  intro l
  induction l with
  | nil =>
    intro o o2 ch ch2 h a b
    simp only [sweepGo, Option.some.injEq, Prod.mk.injEq] at h
    rw [← h.1]
  | cons c rest ih =>
    intro o o2 ch ch2 h a b
    simp only [sweepGo] at h
    by_cases hno : newOptions p o c.1 c.2 = o c.1 c.2
    · rw [if_pos hno] at h
      exact ih o o2 ch ch2 h a b
    · rw [if_neg hno] at h
      by_cases h0 : newOptions p o c.1 c.2 = 0
      · rw [if_pos h0] at h
        exact absurd h (by simp)
      · rw [if_neg h0] at h
        exact Nat.le_trans (ih _ o2 true ch2 h a b)
          (update2_le (newOptions_le p o c.1 c.2) a b)

theorem sum_map_le {α : Type} (l : List α) (f g : α → Nat) (h : ∀ c ∈ l, f c ≤ g c) :
    (l.map f).sum ≤ (l.map g).sum := by
  induction l with
  | nil => simp
  | cons a rest ih =>
    simp only [List.map_cons, List.sum_cons]
    have h1 := h a (List.mem_cons_self a rest)
    have h2 := ih fun c hc => h c (List.mem_cons_of_mem a hc)
    omega

theorem sum_map_lt {α : Type} (l : List α) (f g : α → Nat) (c0 : α) (hc0 : c0 ∈ l)
    (h : ∀ c ∈ l, f c ≤ g c) (hlt : f c0 < g c0) :
    (l.map f).sum < (l.map g).sum := by
  induction l with
  | nil => simp at hc0
  | cons a rest ih =>
    simp only [List.map_cons, List.sum_cons]
    rcases List.mem_cons.mp hc0 with rfl | hm'
    · have h2 := sum_map_le rest f g fun c hc => h c (List.mem_cons_of_mem _ hc)
      omega
    · have h1 := h a (List.mem_cons_self a rest)
      have h2 := ih hm' fun c hc => h c (List.mem_cons_of_mem _ hc)
      omega

theorem totalVal_le {o o2 : Grid} (h : ∀ a b, o2 a b ≤ o a b) : totalVal o2 ≤ totalVal o :=
  sum_map_le interiorCoords _ _ fun c _ => h c.1 c.2

theorem totalVal_update_lt {o : Grid} {x y v : Nat} (hv : v < o x y)
    (hm : (x, y) ∈ interiorCoords) : totalVal (update2 o x y v) < totalVal o := by
  refine sum_map_lt interiorCoords (fun c => update2 o x y v c.1 c.2) (fun c => o c.1 c.2)
    (x, y) hm (fun c _ => update2_le (Nat.le_of_lt hv) c.1 c.2) ?_
  show update2 o x y v x y < o x y
  rw [update2_at]
  exact hv

/-- A sweep that reports a change strictly lowers the total mask sum. -/
theorem sweepGo_change_lt (p : Grid) : ∀ (l : List (Nat × Nat)) (o o2 : Grid),
    (∀ c ∈ l, c ∈ interiorCoords) → sweepGo p l o false = some (o2, true) →
    totalVal o2 < totalVal o := by
  intro l
  induction l with
  | nil =>
    intro o o2 _ h
    simp only [sweepGo, Option.some.injEq, Prod.mk.injEq] at h
    exact absurd h.2 (by simp)
  | cons c rest ih =>
    intro o o2 hmem h
    simp only [sweepGo] at h
    by_cases hno : newOptions p o c.1 c.2 = o c.1 c.2
    · rw [if_pos hno] at h
      exact ih o o2 (fun c' hc' => hmem c' (List.mem_cons_of_mem c hc')) h
    · rw [if_neg hno] at h
      by_cases h0 : newOptions p o c.1 c.2 = 0
      · rw [if_pos h0] at h
        exact absurd h (by simp)
      · rw [if_neg h0] at h
        have hlt : newOptions p o c.1 c.2 < o c.1 c.2 :=
          Nat.lt_of_le_of_ne (newOptions_le p o c.1 c.2) hno
        have h1 : totalVal (update2 o c.1 c.2 (newOptions p o c.1 c.2)) < totalVal o := by
          have := totalVal_update_lt hlt (by simpa using hmem c (List.mem_cons_self c rest))
          simpa using this
        have h2 : totalVal o2 ≤ totalVal (update2 o c.1 c.2 (newOptions p o c.1 c.2)) :=
          totalVal_le (sweepGo_le p rest _ o2 true true h)
        omega

/-- With fuel exceeding the total mask sum, the sweep loop always
reaches its fixed point or a contradiction. -/
theorem propagateAux_ne_none (p : Grid) : ∀ (f : Nat) (o : Grid),
    totalVal o < f → propagateAux p f o ≠ none := by
  intro f
  induction f with
  | zero => intro o h; omega
  | succ f ih =>
    intro o hf
    rw [propagateAux]
    cases hs : sweepGo p interiorCoords o false with
    | none => simp
    | some r =>
      obtain ⟨o1, ch⟩ := r
      cases ch with
      | false => simp
      | true =>
        simp only [if_pos rfl]
        have hlt := sweepGo_change_lt p interiorCoords o o1 (fun c hc => hc) hs
        exact ih o1 (by omega)

/-- The grid a successful `propagate` returns satisfies the per-cell
fixed-point equation at every interior cell, and a further sweep of it
reports no change. -/
theorem propagateAux_fixpt (p : Grid) : ∀ (f : Nat) (o o2 : Grid),
    propagateAux p f o = some (some o2) →
    sweepGo p interiorCoords o2 false = some (o2, false) ∧
      ∀ c ∈ interiorCoords, newOptions p o2 c.1 c.2 = o2 c.1 c.2 := by
  intro f
  induction f with
  | zero => intro o o2 h; exact absurd h (by simp [propagateAux])
  | succ f ih =>
    intro o o2 h
    rw [propagateAux] at h
    cases hs : sweepGo p interiorCoords o false with
    | none =>
      rw [hs] at h
      simp at h
    | some r =>
      obtain ⟨o1, ch⟩ := r
      rw [hs] at h
      cases ch with
      | true =>
        simp only [if_pos rfl] at h
        exact ih o1 o2 h
      | false =>
        simp only [Bool.false_eq_true, if_false, Option.some.injEq] at h
        subst h
        have h3 := sweepGo_nochange p interiorCoords o o1 false hs
        rw [h3.2.1] at hs ⊢
        exact ⟨hs, h3.2.2⟩

theorem propagate_eq_some {p o o2 : Grid} (h : propagate p o = some o2) :
    propagateAux p (totalVal o + 1) o = some (some o2) := by
  rw [propagate] at h
  cases haux : propagateAux p (totalVal o + 1) o with
  | none => exact absurd haux (propagateAux_ne_none p _ o (by omega))
  | some r =>
    rw [haux] at h
    simp only [Option.getD_some] at h
    rw [h]

/-- C7: propagation is idempotent — if `propagate` succeeds and leaves
the options grid in state `o2`, running it again on `o2` succeeds and
leaves the grid unchanged (it returns exactly `o2`). -/
theorem propagate_idempotent (p o o2 : Grid) (h : propagate p o = some o2) :
    propagate p o2 = some o2 := by
  have hfix := (propagateAux_fixpt p (totalVal o + 1) o o2 (propagate_eq_some h)).1
  rw [propagate, propagateAux, hfix]
  simp

set_option maxRecDepth 100000 in
set_option maxHeartbeats 4000000 in
/-- Witness for C7 on the empty board with the all-ones options grid. -/
theorem propagate_idempotent_witness :
    propagate (fun _ _ => 0)
        ((propagate (fun _ _ => 0) fun _ _ => 1).getD fun _ _ => 1) =
      some ((propagate (fun _ _ => 0) fun _ _ => 1).getD fun _ _ => 1) :=
  propagate_idempotent (fun _ _ => 0) (fun _ _ => 1)
    ((propagate (fun _ _ => 0) fun _ _ => 1).getD fun _ _ => 1) (by rfl)

/-- C3: when `propagate` reports a contradiction (`none`, i.e. some
interior cell's mask would become 0), the search node `dpll` returns
"continue searching" with the callback state untouched, an empty
delivery trace (the consumer is never invoked for that subtree), and no
oracle pick consumed — the contradiction is never surfaced. -/
theorem dpll_contradiction_prunes {σ : Type} (oracle : Nat → Nat × Nat)
    (cb : Sol → σ → Bool × σ) (p : Grid) (fuel : Nat) (o : Grid) (st : σ) (k : Nat)
    (h : propagate p o = none) :
    dpllF oracle cb p (fuel + 1) o st k = ⟨true, st, [], k⟩ := by
  rw [dpllF, h]

set_option maxRecDepth 100000 in
set_option maxHeartbeats 4000000 in
/-- Witness for C3: a lone dead-end piece on an otherwise empty board is
an immediate contradiction. -/
theorem dpll_contradiction_prunes_witness :
    dpllF (fun _ => (0, 0)) (fun _ n => (true, n + 1))
        ((il_problem_parse ['1']).getD fun _ _ => 0) (0 + 1)
        (initOptions ((il_problem_parse ['1']).getD fun _ _ => 0)) (37 : Nat) 5 =
      ⟨true, 37, [], 5⟩ :=
  dpll_contradiction_prunes (fun _ => (0, 0)) (fun _ n => (true, n + 1))
    ((il_problem_parse ['1']).getD fun _ _ => 0) 0
    (initOptions ((il_problem_parse ['1']).getD fun _ _ => 0)) 37 5 (by rfl)

theorem branches_cons {σ : Type} (dp : Grid → σ → Nat → RunResult σ) (o : Grid)
    (c : Nat × Nat) (i : Nat) (rest : List Nat) (st : σ) (k : Nat) :
    branches dp o c (i :: rest) st k =
      if o c.1 c.2 &&& i != 0 then
        if (dp (update2 o c.1 c.2 i) st k).cont then
          ⟨(branches dp o c rest (dp (update2 o c.1 c.2 i) st k).state
              (dp (update2 o c.1 c.2 i) st k).used).cont,
            (branches dp o c rest (dp (update2 o c.1 c.2 i) st k).state
              (dp (update2 o c.1 c.2 i) st k).used).state,
            (dp (update2 o c.1 c.2 i) st k).trace ++
              (branches dp o c rest (dp (update2 o c.1 c.2 i) st k).state
                (dp (update2 o c.1 c.2 i) st k).used).trace,
            (branches dp o c rest (dp (update2 o c.1 c.2 i) st k).state
              (dp (update2 o c.1 c.2 i) st k).used).used⟩
        else
          ⟨false, (dp (update2 o c.1 c.2 i) st k).state,
            (dp (update2 o c.1 c.2 i) st k).trace, (dp (update2 o c.1 c.2 i) st k).used⟩
      else branches dp o c rest st k :=
  rfl

theorem dpllF_succ {σ : Type} (oracle : Nat → Nat × Nat) (cb : Sol → σ → Bool × σ)
    (p : Grid) (fuel : Nat) (o : Grid) (st : σ) (k : Nat) :
    dpllF oracle cb p (fuel + 1) o st k =
      match propagate p o with
      | none => ⟨true, st, [], k⟩
      | some o2 =>
        if finished o2 then
          ⟨(cb (extract p o2) st).1, (cb (extract p o2) st).2,
            [(extract p o2, (cb (extract p o2) st).1)], k⟩
        else
          branches (dpllF oracle cb p fuel) o2 (pickCell o2 (oracle k)) [1, 2, 4, 8] st
            (k + 1) :=
  rfl

theorem goodRun_trivial {σ : Type} (st : σ) (k : Nat) :
    GoodRun (⟨true, st, [], k⟩ : RunResult σ) := by
  constructor
  · intro _ e he
    exact absurd he (List.not_mem_nil e)
  · intro h
    exact absurd h (by simp)

/-- The branch loop of `guess` produces a well-formed run whenever every
recursive call does. -/
theorem branches_goodRun {σ : Type} (dp : Grid → σ → Nat → RunResult σ)
    (hdp : ∀ o st k, GoodRun (dp o st k)) (o : Grid) (c : Nat × Nat) :
    ∀ (l : List Nat) (st : σ) (k : Nat), GoodRun (branches dp o c l st k) := by
  intro l
  induction l with
  | nil => intro st k; exact goodRun_trivial st k
  | cons i rest ih =>
    intro st k
    rw [branches_cons]
    by_cases hb : (o c.1 c.2 &&& i != 0) = true
    · rw [if_pos hb]
      have hr := hdp (update2 o c.1 c.2 i) st k
      by_cases hc : (dp (update2 o c.1 c.2 i) st k).cont = true
      · rw [if_pos hc]
        have hr2 := ih (dp (update2 o c.1 c.2 i) st k).state
          (dp (update2 o c.1 c.2 i) st k).used
        constructor
        · intro hcont e he
          rcases List.mem_append.mp he with he1 | he2
          · exact hr.1 hc e he1
          · exact hr2.1 hcont e he2
        · intro hcont
          obtain ⟨tr0, s, heq, hall⟩ := hr2.2 hcont
          refine ⟨(dp (update2 o c.1 c.2 i) st k).trace ++ tr0, s, ?_, ?_⟩
          · rw [heq, List.append_assoc]
          · intro e he
            rcases List.mem_append.mp he with he1 | he2
            · exact hr.1 hc e he1
            · exact hall e he2
      · rw [if_neg hc]
        have hcf : (dp (update2 o c.1 c.2 i) st k).cont = false :=
          Bool.eq_false_iff.mpr hc
        constructor
        · intro hcont
          exact absurd hcont (by simp)
        · intro _
          exact hr.2 hcf
    · rw [if_neg hb]
      exact ih st k

/-- Every `dpll` run is well formed: the callback is never invoked after
it answers "stop". -/
theorem dpll_goodRun {σ : Type} (oracle : Nat → Nat × Nat) (cb : Sol → σ → Bool × σ)
    (p : Grid) : ∀ (fuel : Nat) (o : Grid) (st : σ) (k : Nat),
    GoodRun (dpllF oracle cb p fuel o st k) := by
  intro fuel
  induction fuel with
  | zero => intro o st k; exact goodRun_trivial st k
  | succ fuel ih =>
    intro o st k
    rw [dpllF_succ]
    cases hp : propagate p o with
    | none => exact goodRun_trivial st k
    | some o2 =>
      show GoodRun (if finished o2 then
          (⟨(cb (extract p o2) st).1, (cb (extract p o2) st).2,
            [(extract p o2, (cb (extract p o2) st).1)], k⟩ : RunResult σ)
        else branches (dpllF oracle cb p fuel) o2 (pickCell o2 (oracle k)) [1, 2, 4, 8] st
          (k + 1))
      by_cases hf : finished o2 = true
      · rw [if_pos hf]
        constructor
        · intro hcont e he
          rcases List.mem_singleton.mp he with rfl
          exact hcont
        · intro hcont
          refine ⟨[], extract p o2, ?_, ?_⟩
          · rw [List.nil_append]
            have : (cb (extract p o2) st).1 = false := hcont
            rw [this]
          · intro e he
            exact absurd he (List.not_mem_nil e)
      · rw [if_neg hf]
        exact branches_goodRun (dpllF oracle cb p fuel) (fun o' st' k' => ih o' st' k')
          o2 (pickCell o2 (oracle k)) [1, 2, 4, 8] st (k + 1)

/-- C2: `il_solve` never invokes the consumer again after a stop: in the
trace of callback invocations, every answer before the last one is
"continue"; and if the very first invocation answers "stop", that
invocation is the entire trace (exactly one delivery). -/
theorem il_solve_stop {σ : Type} (oracle : Nat → Nat × Nat) (cb : Sol → σ → Bool × σ)
    (p : Grid) (st : σ) :
    (∀ e ∈ (il_solve oracle cb p st).trace.dropLast, e.2 = true) ∧
    (∀ e0, (il_solve oracle cb p st).trace.head? = some e0 → e0.2 = false →
      (il_solve oracle cb p st).trace = [e0]) := by
  have hg : GoodRun (il_solve oracle cb p st) :=
    dpll_goodRun oracle cb p 4096 (initOptions p) st 0
  cases hc : (il_solve oracle cb p st).cont with
  | true =>
    have hall := hg.1 hc
    constructor
    · intro e he
      exact hall e (List.dropLast_subset _ he)
    · intro e0 hh hf
      have := hall e0 (List.mem_of_mem_head? hh)
      rw [hf] at this
      exact absurd this (by simp)
  | false =>
    obtain ⟨tr0, s, heq, hall⟩ := hg.2 hc
    constructor
    · intro e he
      rw [heq, List.dropLast_concat] at he
      exact hall e he
    · intro e0 hh hf
      cases tr0 with
      | nil =>
        rw [heq, List.nil_append] at hh ⊢
        have : e0 = (s, false) := by
          simp only [List.head?_cons, Option.some.injEq] at hh
          exact hh.symm
        rw [this]
      | cons h t =>
        rw [heq] at hh
        have he0 : e0 = h := by
          simp only [List.cons_append, List.head?_cons, Option.some.injEq] at hh
          exact hh.symm
        have := hall h (List.mem_cons_self h t)
        rw [← he0, hf] at this
        exact absurd this (by simp)

/-- Witness for C2 with a concrete counting callback on the empty board. -/
theorem il_solve_stop_witness :
    (∀ e ∈ (il_solve (fun _ => (0, 0)) (fun _ n => (true, n + 1)) (fun _ _ => 0)
        (0 : Nat)).trace.dropLast, e.2 = true) ∧
    (∀ e0, (il_solve (fun _ => (0, 0)) (fun _ n => (true, n + 1)) (fun _ _ => 0)
        (0 : Nat)).trace.head? = some e0 → e0.2 = false →
      (il_solve (fun _ => (0, 0)) (fun _ n => (true, n + 1)) (fun _ _ => 0)
        (0 : Nat)).trace = [e0]) :=
  il_solve_stop (fun _ => (0, 0)) (fun _ n => (true, n + 1)) (fun _ _ => 0) 0

theorem parseGo_ws : ∀ (l : List Char), (∀ c ∈ l, c = ' ' ∨ c = '\n') →
    ∀ (x y : Nat) (b : Grid), parseGo l x y b = some b := by
  intro l
  induction l with
  | nil => intro _ x y b; rfl
  | cons c rest ih =>
    intro hws x y b
    rcases hws c (List.mem_cons_self c rest) with rfl | rfl
    · rw [parseGo_space]
      exact ih (fun c' hc' => hws c' (List.mem_cons_of_mem _ hc')) (x + 1) y b
    · rw [parseGo_newline]
      exact ih (fun c' hc' => hws c' (List.mem_cons_of_mem _ hc')) 1 (y + 1) b

set_option maxRecDepth 100000 in
set_option maxHeartbeats 4000000 in
/-- C4: the empty input and every whitespace-only input parse
successfully to the all-empty board, and `il_solve` on the all-empty
board invokes the consumer exactly once, delivering the empty solution
(every horizontal and vertical edge bit false). -/
theorem empty_input_single_empty_solution :
    (il_problem_parse [] = some fun _ _ => 0) ∧
    (∀ l : List Char, (∀ c ∈ l, c = ' ' ∨ c = '\n') →
      il_problem_parse l = some fun _ _ => 0) ∧
    (∀ (σ : Type) (oracle : Nat → Nat × Nat) (cb : Sol → σ → Bool × σ) (st : σ),
      (il_solve oracle cb (fun _ _ => 0) st).trace =
        [(extract (fun _ _ => 0) (initOptions fun _ _ => 0),
          (cb (extract (fun _ _ => 0) (initOptions fun _ _ => 0)) st).1)] ∧
      ∀ x y : Nat,
        (extract (fun _ _ => 0) (initOptions fun _ _ => 0)).horizontal x y = false ∧
        (extract (fun _ _ => 0) (initOptions fun _ _ => 0)).vertical x y = false) := by
  refine ⟨rfl, ?_, ?_⟩
  · intro l hws
    exact parseGo_ws l hws 1 1 _
  · intro σ oracle cb st
    have hprop : propagate (fun _ _ => 0) (initOptions fun _ _ => 0) =
        some (initOptions fun _ _ => 0) := by rfl
    have hfin : finished (initOptions fun _ _ => 0) = true := by rfl
    constructor
    · rw [il_solve, show (4096 : Nat) = 4095 + 1 from rfl, dpllF_succ]
      simp only [hprop, hfin, if_true]
    · intro x y
      constructor
      · simp only [extract, initOptions]
        decide
      · simp only [extract, initOptions]
        decide

/-- Witness for C4 discharging the whitespace-only hypothesis at the
input consisting of two spaces and a newline. -/
theorem empty_input_single_empty_solution_witness :
    il_problem_parse [' ', '\n', ' '] = some fun _ _ => 0 :=
  empty_input_single_empty_solution.2.1 [' ', '\n', ' '] (by decide)

theorem nibble_and_facts :
    ((1:Nat) &&& 1 = 1) ∧ ((1:Nat) &&& 2 = 0) ∧ ((1:Nat) &&& 4 = 0) ∧ ((1:Nat) &&& 8 = 0) ∧
    ((2:Nat) &&& 1 = 0) ∧ ((2:Nat) &&& 2 = 2) ∧ ((2:Nat) &&& 4 = 0) ∧ ((2:Nat) &&& 8 = 0) ∧
    ((4:Nat) &&& 1 = 0) ∧ ((4:Nat) &&& 2 = 0) ∧ ((4:Nat) &&& 4 = 4) ∧ ((4:Nat) &&& 8 = 0) ∧
    ((8:Nat) &&& 1 = 0) ∧ ((8:Nat) &&& 2 = 0) ∧ ((8:Nat) &&& 4 = 0) ∧ ((8:Nat) &&& 8 = 8) := by
  decide

theorem rotate2_bits16 : ∀ t < 16,
    (rotate2 t &&& 2 ≠ 0 ↔ t &&& 8 ≠ 0) ∧ (rotate2 t &&& 8 ≠ 0 ↔ t &&& 2 ≠ 0) ∧
    (rotate2 t &&& 4 ≠ 0 ↔ t &&& 1 ≠ 0) ∧ (rotate2 t &&& 1 ≠ 0 ↔ t &&& 4 ≠ 0) := by
  decide

theorem orInner_and_1 (f0 f1 f2 f3 : Nat) :
    ((f0 &&& 1) ||| (f1 &&& 2) ||| (f2 &&& 4) ||| (f3 &&& 8)) &&& 1 = f0 &&& 1 := by
  rw [Nat.and_distrib_right, Nat.and_distrib_right, Nat.and_distrib_right,
    Nat.and_assoc, Nat.and_assoc, Nat.and_assoc, Nat.and_assoc]
  simp [nibble_and_facts.1, nibble_and_facts.2.1, nibble_and_facts.2.2.1,
    nibble_and_facts.2.2.2.1, nibble_and_facts.2.2.2.2.1, nibble_and_facts.2.2.2.2.2.1,
    nibble_and_facts.2.2.2.2.2.2.1, nibble_and_facts.2.2.2.2.2.2.2.1,
    nibble_and_facts.2.2.2.2.2.2.2.2.1, nibble_and_facts.2.2.2.2.2.2.2.2.2.1,
    nibble_and_facts.2.2.2.2.2.2.2.2.2.2.1, nibble_and_facts.2.2.2.2.2.2.2.2.2.2.2.1,
    nibble_and_facts.2.2.2.2.2.2.2.2.2.2.2.2.1,
    nibble_and_facts.2.2.2.2.2.2.2.2.2.2.2.2.2.1,
    nibble_and_facts.2.2.2.2.2.2.2.2.2.2.2.2.2.2.1,
    nibble_and_facts.2.2.2.2.2.2.2.2.2.2.2.2.2.2.2]

theorem orInner_and_2 (f0 f1 f2 f3 : Nat) :
    ((f0 &&& 1) ||| (f1 &&& 2) ||| (f2 &&& 4) ||| (f3 &&& 8)) &&& 2 = f1 &&& 2 := by
  rw [Nat.and_distrib_right, Nat.and_distrib_right, Nat.and_distrib_right,
    Nat.and_assoc, Nat.and_assoc, Nat.and_assoc, Nat.and_assoc]
  simp [nibble_and_facts.1, nibble_and_facts.2.1, nibble_and_facts.2.2.1,
    nibble_and_facts.2.2.2.1, nibble_and_facts.2.2.2.2.1, nibble_and_facts.2.2.2.2.2.1,
    nibble_and_facts.2.2.2.2.2.2.1, nibble_and_facts.2.2.2.2.2.2.2.1,
    nibble_and_facts.2.2.2.2.2.2.2.2.1, nibble_and_facts.2.2.2.2.2.2.2.2.2.1,
    nibble_and_facts.2.2.2.2.2.2.2.2.2.2.1, nibble_and_facts.2.2.2.2.2.2.2.2.2.2.2.1,
    nibble_and_facts.2.2.2.2.2.2.2.2.2.2.2.2.1,
    nibble_and_facts.2.2.2.2.2.2.2.2.2.2.2.2.2.1,
    nibble_and_facts.2.2.2.2.2.2.2.2.2.2.2.2.2.2.1,
    nibble_and_facts.2.2.2.2.2.2.2.2.2.2.2.2.2.2.2]

theorem orInner_and_4 (f0 f1 f2 f3 : Nat) :
    ((f0 &&& 1) ||| (f1 &&& 2) ||| (f2 &&& 4) ||| (f3 &&& 8)) &&& 4 = f2 &&& 4 := by
  rw [Nat.and_distrib_right, Nat.and_distrib_right, Nat.and_distrib_right,
    Nat.and_assoc, Nat.and_assoc, Nat.and_assoc, Nat.and_assoc]
  simp [nibble_and_facts.1, nibble_and_facts.2.1, nibble_and_facts.2.2.1,
    nibble_and_facts.2.2.2.1, nibble_and_facts.2.2.2.2.1, nibble_and_facts.2.2.2.2.2.1,
    nibble_and_facts.2.2.2.2.2.2.1, nibble_and_facts.2.2.2.2.2.2.2.1,
    nibble_and_facts.2.2.2.2.2.2.2.2.1, nibble_and_facts.2.2.2.2.2.2.2.2.2.1,
    nibble_and_facts.2.2.2.2.2.2.2.2.2.2.1, nibble_and_facts.2.2.2.2.2.2.2.2.2.2.2.1,
    nibble_and_facts.2.2.2.2.2.2.2.2.2.2.2.2.1,
    nibble_and_facts.2.2.2.2.2.2.2.2.2.2.2.2.2.1,
    nibble_and_facts.2.2.2.2.2.2.2.2.2.2.2.2.2.2.1,
    nibble_and_facts.2.2.2.2.2.2.2.2.2.2.2.2.2.2.2]

theorem orInner_and_8 (f0 f1 f2 f3 : Nat) :
    ((f0 &&& 1) ||| (f1 &&& 2) ||| (f2 &&& 4) ||| (f3 &&& 8)) &&& 8 = f3 &&& 8 := by
  rw [Nat.and_distrib_right, Nat.and_distrib_right, Nat.and_distrib_right,
    Nat.and_assoc, Nat.and_assoc, Nat.and_assoc, Nat.and_assoc]
  simp [nibble_and_facts.1, nibble_and_facts.2.1, nibble_and_facts.2.2.1,
    nibble_and_facts.2.2.2.1, nibble_and_facts.2.2.2.2.1, nibble_and_facts.2.2.2.2.2.1,
    nibble_and_facts.2.2.2.2.2.2.1, nibble_and_facts.2.2.2.2.2.2.2.1,
    nibble_and_facts.2.2.2.2.2.2.2.2.1, nibble_and_facts.2.2.2.2.2.2.2.2.2.1,
    nibble_and_facts.2.2.2.2.2.2.2.2.2.2.1, nibble_and_facts.2.2.2.2.2.2.2.2.2.2.2.1,
    nibble_and_facts.2.2.2.2.2.2.2.2.2.2.2.2.1,
    nibble_and_facts.2.2.2.2.2.2.2.2.2.2.2.2.2.1,
    nibble_and_facts.2.2.2.2.2.2.2.2.2.2.2.2.2.2.1,
    nibble_and_facts.2.2.2.2.2.2.2.2.2.2.2.2.2.2.2]

theorem and_mask_submask15 (a m : Nat) (hm : m &&& 15 = m) : (a &&& m) &&& 15 = a &&& m := by
  rw [Nat.and_assoc, hm]

theorem orInner_lt16 (f0 f1 f2 f3 : Nat) :
    ((f0 &&& 1) ||| (f1 &&& 2) ||| (f2 &&& 4) ||| (f3 &&& 8)) < 16 := by
  have h : ((f0 &&& 1) ||| (f1 &&& 2) ||| (f2 &&& 4) ||| (f3 &&& 8)) &&& 15 =
      (f0 &&& 1) ||| (f1 &&& 2) ||| (f2 &&& 4) ||| (f3 &&& 8) :=
    or_submask (or_submask (or_submask (and_mask_submask15 f0 1 (by decide))
      (and_mask_submask15 f1 2 (by decide))) (and_mask_submask15 f2 4 (by decide)))
      (and_mask_submask15 f3 8 (by decide))
  have h2 : ((f0 &&& 1) ||| (f1 &&& 2) ||| (f2 &&& 4) ||| (f3 &&& 8)) &&& 15 ≤ 15 :=
    Nat.and_le_right
  omega

/-- The four bits of a neighbour mask come from the four directions'
fanouts, one bit each, reflected through `rotate2`. -/
theorem combineDirs_bits (f0 f1 f2 f3 : Nat) :
    (combineDirs f0 f1 f2 f3 &&& 2 ≠ 0 ↔ f3 &&& 8 ≠ 0) ∧
    (combineDirs f0 f1 f2 f3 &&& 8 ≠ 0 ↔ f1 &&& 2 ≠ 0) ∧
    (combineDirs f0 f1 f2 f3 &&& 4 ≠ 0 ↔ f0 &&& 1 ≠ 0) ∧
    (combineDirs f0 f1 f2 f3 &&& 1 ≠ 0 ↔ f2 &&& 4 ≠ 0) := by
  have hb := rotate2_bits16 ((f0 &&& 1) ||| (f1 &&& 2) ||| (f2 &&& 4) ||| (f3 &&& 8))
    (orInner_lt16 f0 f1 f2 f3)
  rw [orInner_and_1, orInner_and_2, orInner_and_4, orInner_and_8] at hb
  exact ⟨hb.1, hb.2.1, hb.2.2.1, hb.2.2.2⟩

theorem rotate_lt16 (a b : Nat) : rotate a b < 16 := by
  have h : rotate a b ≤ 15 := Nat.and_le_right
  omega

theorem rotate2_lt16 (c : Nat) : rotate2 c < 16 := by
  have h : rotate2 c ≤ 15 := Nat.and_le_right
  omega

theorem combineDirs_lt16 (f0 f1 f2 f3 : Nat) : combineDirs f0 f1 f2 f3 < 16 :=
  rotate2_lt16 _

theorem single_cases : ∀ v < 16, single_bit_set v = true → v ≠ 0 →
    v = 1 ∨ v = 2 ∨ v = 4 ∨ v = 8 := by
  decide

/-- If a single-orientation mask survives the fixed point, its
orientation passed both acceptance tests. -/
theorem accept_of_fixpt {s v mbs mbc : Nat} (hv : v = 1 ∨ v = 2 ∨ v = 4 ∨ v = 8)
    (hfix : newOptionsOf s v mbs mbc = v) :
    rotate s v &&& (mbs ^^^ 15) = 0 ∧ (rotate s v ||| mbc) = 15 := by
  have key : acceptBit s mbs mbc v = true := by
    by_contra hA
    have hA2 : acceptBit s mbs mbc v = false := Bool.eq_false_iff.mpr hA
    rcases hv with rfl | rfl | rfl | rfl <;>
      simp [newOptionsOf, hA2, nibble_and_facts.1, nibble_and_facts.2.1,
        nibble_and_facts.2.2.1, nibble_and_facts.2.2.2.1, nibble_and_facts.2.2.2.2.1,
        nibble_and_facts.2.2.2.2.2.1, nibble_and_facts.2.2.2.2.2.2.1,
        nibble_and_facts.2.2.2.2.2.2.2.1, nibble_and_facts.2.2.2.2.2.2.2.2.1,
        nibble_and_facts.2.2.2.2.2.2.2.2.2.1, nibble_and_facts.2.2.2.2.2.2.2.2.2.2.1,
        nibble_and_facts.2.2.2.2.2.2.2.2.2.2.2.1,
        nibble_and_facts.2.2.2.2.2.2.2.2.2.2.2.2.1,
        nibble_and_facts.2.2.2.2.2.2.2.2.2.2.2.2.2.1,
        nibble_and_facts.2.2.2.2.2.2.2.2.2.2.2.2.2.2.1,
        nibble_and_facts.2.2.2.2.2.2.2.2.2.2.2.2.2.2.2] at hfix
  simp only [acceptBit, Bool.and_eq_true, beq_iff_eq] at key
  exact key

theorem rotate_compl16 : ∀ s < 16,
    rotate (s ^^^ 15) 1 = rotate s 1 ^^^ 15 ∧ rotate (s ^^^ 15) 2 = rotate s 2 ^^^ 15 ∧
    rotate (s ^^^ 15) 4 = rotate s 4 ^^^ 15 ∧ rotate (s ^^^ 15) 8 = rotate s 8 ^^^ 15 := by
  decide

theorem rotate_compl {s v : Nat} (hs : s < 16) (hv : v = 1 ∨ v = 2 ∨ v = 4 ∨ v = 8) :
    rotate (s ^^^ 15) v = rotate s v ^^^ 15 := by
  have h := rotate_compl16 s hs
  rcases hv with rfl | rfl | rfl | rfl
  · exact h.1
  · exact h.2.1
  · exact h.2.2.1
  · exact h.2.2.2

theorem fanout_single {s v : Nat} (hv : v = 1 ∨ v = 2 ∨ v = 4 ∨ v = 8) :
    fanout s v = rotate s v := by
  rcases hv with rfl | rfl | rfl | rfl <;>
    simp [fanout, rotate, nibble_and_facts.1, nibble_and_facts.2.1,
      nibble_and_facts.2.2.1, nibble_and_facts.2.2.2.1, nibble_and_facts.2.2.2.2.1,
      nibble_and_facts.2.2.2.2.2.1, nibble_and_facts.2.2.2.2.2.2.1,
      nibble_and_facts.2.2.2.2.2.2.2.1, nibble_and_facts.2.2.2.2.2.2.2.2.1,
      nibble_and_facts.2.2.2.2.2.2.2.2.2.1, nibble_and_facts.2.2.2.2.2.2.2.2.2.2.1,
      nibble_and_facts.2.2.2.2.2.2.2.2.2.2.2.1,
      nibble_and_facts.2.2.2.2.2.2.2.2.2.2.2.2.1,
      nibble_and_facts.2.2.2.2.2.2.2.2.2.2.2.2.2.1,
      nibble_and_facts.2.2.2.2.2.2.2.2.2.2.2.2.2.2.1,
      nibble_and_facts.2.2.2.2.2.2.2.2.2.2.2.2.2.2.2]

theorem accept_mbs_2 : ∀ c < 16, ∀ m < 16,
    c &&& (m ^^^ 15) = 0 → c &&& 2 ≠ 0 → m &&& 2 ≠ 0 := by
  decide

theorem accept_mbc_2 : ∀ c < 16, ∀ m < 16,
    (c ||| m) = 15 → c &&& 2 = 0 → m &&& 2 ≠ 0 := by
  decide

theorem accept_mbs_4 : ∀ c < 16, ∀ m < 16,
    c &&& (m ^^^ 15) = 0 → c &&& 4 ≠ 0 → m &&& 4 ≠ 0 := by
  decide

theorem accept_mbc_4 : ∀ c < 16, ∀ m < 16,
    (c ||| m) = 15 → c &&& 4 = 0 → m &&& 4 ≠ 0 := by
  decide

theorem compl_bit : ∀ w < 16,
    ((w ^^^ 15) &&& 8 ≠ 0 → w &&& 8 = 0) ∧ ((w ^^^ 15) &&& 1 ≠ 0 → w &&& 1 = 0) := by
  decide

/-- The consequences of the fixed point at one interior cell with a
single surviving orientation. -/
theorem cell_fixpt_info (p o : Grid) (x y : Nat)
    (hfix : newOptions p o x y = o x y)
    (hs : single_bit_set (o x y) = true) (hnz : o x y ≠ 0) :
    (o x y = 1 ∨ o x y = 2 ∨ o x y = 4 ∨ o x y = 8) ∧
    rotate (p x y) (o x y) &&& (mbsAt p o x y ^^^ 15) = 0 ∧
    (rotate (p x y) (o x y) ||| mbcAt p o x y) = 15 := by
  have hlt : o x y < 16 := by
    have h := newOptions_le_15 p o x y
    omega
  have hv := single_cases (o x y) hlt hs hnz
  have hacc := accept_of_fixpt hv hfix
  exact ⟨hv, hacc.1, hacc.2⟩

theorem mem_interior {u v : Nat} (hu1 : 1 ≤ u) (hu2 : u ≤ 14) (hv1 : 1 ≤ v) (hv2 : v ≤ 14) :
    (u, v) ∈ interiorCoords := by
  obtain ⟨i, rfl⟩ : ∃ i, u = i + 1 := ⟨u - 1, by omega⟩
  obtain ⟨j, rfl⟩ : ∃ j, v = j + 1 := ⟨v - 1, by omega⟩
  refine List.mem_flatten_of_mem (List.mem_map.mpr ⟨i, List.mem_range.mpr (by omega), rfl⟩) ?_
  exact List.mem_map.mpr ⟨j, List.mem_range.mpr (by omega), rfl⟩

/-- Horizontal edge agreement at a propagation fixed point: the east
stub of the placed shape at `(x+1, y+1)` is present exactly when the
west stub of the placed shape at `(x+2, y+1)` is. -/
theorem fixpt_horiz (p o : Grid) (hp : ∀ u < 16, ∀ v < 16, p u v < 16)
    (hfix : ∀ c ∈ interiorCoords, newOptions p o c.1 c.2 = o c.1 c.2)
    (hfin : finished o = true) (hnz : ∀ a b, o a b ≠ 0)
    (x y : Nat) (hx : x < 13) (hy : y < 14) :
    (rotate (p (x + 1) (y + 1)) (o (x + 1) (y + 1)) &&& 2 ≠ 0 ↔
      rotate (p (x + 2) (y + 1)) (o (x + 2) (y + 1)) &&& 8 ≠ 0) := by
  have hma : (x + 1, y + 1) ∈ interiorCoords :=
    mem_interior (by omega) (by omega) (by omega) (by omega)
  have hmb : (x + 2, y + 1) ∈ interiorCoords :=
    mem_interior (by omega) (by omega) (by omega) (by omega)
  have hsing := List.all_eq_true.mp hfin
  have ia := cell_fixpt_info p o (x + 1) (y + 1) (hfix _ hma) (hsing _ hma) (hnz _ _)
  have ib := cell_fixpt_info p o (x + 2) (y + 1) (hfix _ hmb) (hsing _ hmb) (hnz _ _)
  have hsb : p (x + 2) (y + 1) < 16 := hp _ (by omega) _ (by omega)
  have hmbs : mbsAt p o (x + 1) (y + 1) &&& 2 ≠ 0 ↔
      fanout (p (x + 2) (y + 1)) (o (x + 2) (y + 1)) &&& 8 ≠ 0 :=
    (combineDirs_bits _ _ _ _).1
  have hmbc : mbcAt p o (x + 1) (y + 1) &&& 2 ≠ 0 ↔
      fanout (p (x + 2) (y + 1) ^^^ 15) (o (x + 2) (y + 1)) &&& 8 ≠ 0 :=
    (combineDirs_bits _ _ _ _).1
  rw [fanout_single ib.1] at hmbs
  rw [fanout_single ib.1, rotate_compl hsb ib.1] at hmbc
  have hca16 : rotate (p (x + 1) (y + 1)) (o (x + 1) (y + 1)) < 16 := rotate_lt16 _ _
  have hmbs16 : mbsAt p o (x + 1) (y + 1) < 16 := combineDirs_lt16 _ _ _ _
  have hmbc16 : mbcAt p o (x + 1) (y + 1) < 16 := combineDirs_lt16 _ _ _ _
  constructor
  · intro h
    exact hmbs.mp (accept_mbs_2 _ hca16 _ hmbs16 ia.2.1 h)
  · intro h
    by_cases h0 : rotate (p (x + 1) (y + 1)) (o (x + 1) (y + 1)) &&& 2 = 0
    · have h2 := hmbc.mp (accept_mbc_2 _ hca16 _ hmbc16 ia.2.2 h0)
      exact absurd ((compl_bit _ (rotate_lt16 _ _)).1 h2) h
    · exact h0

/-- Vertical edge agreement at a propagation fixed point: the south
stub of the placed shape at `(x+1, y+1)` is present exactly when the
north stub of the placed shape at `(x+1, y+2)` is. -/
theorem fixpt_vert (p o : Grid) (hp : ∀ u < 16, ∀ v < 16, p u v < 16)
    (hfix : ∀ c ∈ interiorCoords, newOptions p o c.1 c.2 = o c.1 c.2)
    (hfin : finished o = true) (hnz : ∀ a b, o a b ≠ 0)
    (x y : Nat) (hx : x < 14) (hy : y < 13) :
    (rotate (p (x + 1) (y + 1)) (o (x + 1) (y + 1)) &&& 4 ≠ 0 ↔
      rotate (p (x + 1) (y + 2)) (o (x + 1) (y + 2)) &&& 1 ≠ 0) := by
  have hma : (x + 1, y + 1) ∈ interiorCoords :=
    mem_interior (by omega) (by omega) (by omega) (by omega)
  have hmb : (x + 1, y + 2) ∈ interiorCoords :=
    mem_interior (by omega) (by omega) (by omega) (by omega)
  have hsing := List.all_eq_true.mp hfin
  have ia := cell_fixpt_info p o (x + 1) (y + 1) (hfix _ hma) (hsing _ hma) (hnz _ _)
  have ib := cell_fixpt_info p o (x + 1) (y + 2) (hfix _ hmb) (hsing _ hmb) (hnz _ _)
  have hsb : p (x + 1) (y + 2) < 16 := hp _ (by omega) _ (by omega)
  have hmbs : mbsAt p o (x + 1) (y + 1) &&& 4 ≠ 0 ↔
      fanout (p (x + 1) (y + 2)) (o (x + 1) (y + 2)) &&& 1 ≠ 0 :=
    (combineDirs_bits _ _ _ _).2.2.1
  have hmbc : mbcAt p o (x + 1) (y + 1) &&& 4 ≠ 0 ↔
      fanout (p (x + 1) (y + 2) ^^^ 15) (o (x + 1) (y + 2)) &&& 1 ≠ 0 :=
    (combineDirs_bits _ _ _ _).2.2.1
  rw [fanout_single ib.1] at hmbs
  rw [fanout_single ib.1, rotate_compl hsb ib.1] at hmbc
  have hca16 : rotate (p (x + 1) (y + 1)) (o (x + 1) (y + 1)) < 16 := rotate_lt16 _ _
  have hmbs16 : mbsAt p o (x + 1) (y + 1) < 16 := combineDirs_lt16 _ _ _ _
  have hmbc16 : mbcAt p o (x + 1) (y + 1) < 16 := combineDirs_lt16 _ _ _ _
  constructor
  · intro h
    exact hmbs.mp (accept_mbs_4 _ hca16 _ hmbs16 ia.2.1 h)
  · intro h
    by_cases h0 : rotate (p (x + 1) (y + 1)) (o (x + 1) (y + 1)) &&& 4 = 0
    · have h2 := hmbc.mp (accept_mbc_4 _ hca16 _ hmbc16 ia.2.2 h0)
      exact absurd ((compl_bit _ (rotate_lt16 _ _)).2 h2) h
    · exact h0

theorem update2_ne_zero {o : Grid} {x y v : Nat} (hnz : ∀ a b, o a b ≠ 0) (hv : v ≠ 0)
    (a b : Nat) : update2 o x y v a b ≠ 0 := by
  rw [update2]
  split
  · exact hv
  · exact hnz a b

/-- A sweep never zeroes a cell (it aborts instead). -/
theorem sweepGo_nonzero (p : Grid) : ∀ (l : List (Nat × Nat)) (o o2 : Grid) (ch ch2 : Bool),
    sweepGo p l o ch = some (o2, ch2) → (∀ a b, o a b ≠ 0) → ∀ a b, o2 a b ≠ 0 := by
  intro l
  induction l with
  | nil =>
    intro o o2 ch ch2 h hnz a b
    simp only [sweepGo, Option.some.injEq, Prod.mk.injEq] at h
    rw [← h.1]
    exact hnz a b
  | cons c rest ih =>
    intro o o2 ch ch2 h hnz a b
    simp only [sweepGo] at h
    by_cases hno : newOptions p o c.1 c.2 = o c.1 c.2
    · rw [if_pos hno] at h
      exact ih o o2 ch ch2 h hnz a b
    · rw [if_neg hno] at h
      by_cases h0 : newOptions p o c.1 c.2 = 0
      · rw [if_pos h0] at h
        exact absurd h (by simp)
      · rw [if_neg h0] at h
        exact ih _ o2 true ch2 h (update2_ne_zero hnz h0) a b

theorem propagateAux_nonzero (p : Grid) : ∀ (f : Nat) (o o2 : Grid),
    propagateAux p f o = some (some o2) → (∀ a b, o a b ≠ 0) → ∀ a b, o2 a b ≠ 0 := by
  intro f
  induction f with
  | zero => intro o o2 h; exact absurd h (by simp [propagateAux])
  | succ f ih =>
    intro o o2 h hnz
    rw [propagateAux] at h
    cases hs : sweepGo p interiorCoords o false with
    | none => rw [hs] at h; simp at h
    | some r =>
      obtain ⟨o1, ch⟩ := r
      rw [hs] at h
      cases ch with
      | true =>
        simp only [if_pos rfl] at h
        exact ih o1 o2 h (sweepGo_nonzero p interiorCoords o o1 false true hs hnz)
      | false =>
        simp only [Bool.false_eq_true, if_false, Option.some.injEq] at h
        subst h
        exact sweepGo_nonzero p interiorCoords o o1 false false hs hnz

theorem propagate_nonzero {p o o2 : Grid} (h : propagate p o = some o2)
    (hnz : ∀ a b, o a b ≠ 0) : ∀ a b, o2 a b ≠ 0 :=
  propagateAux_nonzero p (totalVal o + 1) o o2 (propagate_eq_some h) hnz

/-- Every solution a branch loop delivers comes from a recursive `dpll`
call on a nonzero grid. -/
theorem branches_origin {σ : Type} (dp : Grid → σ → Nat → RunResult σ)
    (P : Sol × Bool → Prop)
    (hdp : ∀ (o' : Grid) (st : σ) (k : Nat), (∀ a b, o' a b ≠ 0) →
      ∀ e ∈ (dp o' st k).trace, P e)
    (o : Grid) (hnz : ∀ a b, o a b ≠ 0) (c : Nat × Nat) :
    ∀ (l : List Nat), (∀ i ∈ l, i ≠ 0) → ∀ (st : σ) (k : Nat),
    ∀ e ∈ (branches dp o c l st k).trace, P e := by
  intro l
  induction l with
  | nil =>
    intro _ st k e he
    exact absurd he (List.not_mem_nil e)
  | cons i rest ih =>
    intro hl st k e he
    rw [branches_cons] at he
    by_cases hb : (o c.1 c.2 &&& i != 0) = true
    · rw [if_pos hb] at he
      by_cases hc : (dp (update2 o c.1 c.2 i) st k).cont = true
      · rw [if_pos hc] at he
        rcases List.mem_append.mp he with he1 | he2
        · exact hdp (update2 o c.1 c.2 i) st k
            (update2_ne_zero hnz (hl i (List.mem_cons_self i rest))) e he1
        · exact ih (fun j hj => hl j (List.mem_cons_of_mem i hj)) _ _ e he2
      · rw [if_neg hc] at he
        exact hdp (update2 o c.1 c.2 i) st k
          (update2_ne_zero hnz (hl i (List.mem_cons_self i rest))) e he
    · rw [if_neg hb] at he
      exact ih (fun j hj => hl j (List.mem_cons_of_mem i hj)) st k e he

/-- Every solution `dpll` delivers is the extraction of a grid that is a
nonzero, finished fixed point of propagation. -/
theorem dpll_origin {σ : Type} (oracle : Nat → Nat × Nat) (cb : Sol → σ → Bool × σ)
    (p : Grid) : ∀ (fuel : Nat) (o : Grid) (st : σ) (k : Nat), (∀ a b, o a b ≠ 0) →
    ∀ e ∈ (dpllF oracle cb p fuel o st k).trace,
    ∃ o2 : Grid, (∀ c ∈ interiorCoords, newOptions p o2 c.1 c.2 = o2 c.1 c.2) ∧
      finished o2 = true ∧ (∀ a b, o2 a b ≠ 0) ∧ e.1 = extract p o2 := by
  intro fuel
  induction fuel with
  | zero =>
    intro o st k _ e he
    exact absurd he (List.not_mem_nil e)
  | succ fuel ih =>
    intro o st k hnz e he
    rw [dpllF_succ] at he
    split at he
    · exact absurd he (List.not_mem_nil e)
    · next o2 hp =>
      have hnz2 := propagate_nonzero hp hnz
      split at he
      · next hf =>
        rcases List.mem_singleton.mp he with rfl
        exact ⟨o2, (propagateAux_fixpt p (totalVal o + 1) o o2 (propagate_eq_some hp)).2,
          hf, hnz2, rfl⟩
      · exact branches_origin (dpllF oracle cb p fuel) _
          (fun o' st' k' hnz' e' he' => ih o' st' k' hnz' e' he') o2 hnz2
          (pickCell o2 (oracle k)) [1, 2, 4, 8] (by decide) st (k + 1) e he

theorem initOpt_ne_zero (v : Nat) : initOpt v ≠ 0 := by
  rw [initOpt]
  split
  · exact one_ne_zero
  · split
    · exact three_ne_zero
    · exact (by decide : (15 : Nat) ≠ 0)

set_option maxRecDepth 100000 in
set_option maxHeartbeats 4000000 in
/-- C1: every solution `il_solve` delivers to the consumer satisfies
strict edge agreement.  There is a placement (each interior cell's
board shape in its chosen rotation) such that every horizontal edge bit
equals the east-stub bit of the left cell's placed shape and the
west-stub bit of the right cell's placed shape, and every vertical edge
bit equals the south-stub bit of the upper cell's placed shape and the
north-stub bit of the lower cell's placed shape. -/
theorem il_solve_edge_agreement {σ : Type} (oracle : Nat → Nat × Nat)
    (cb : Sol → σ → Bool × σ) (p : Grid) (st : σ)
    (hp : ∀ u < 16, ∀ v < 16, p u v < 16) :
    ∀ e ∈ (il_solve oracle cb p st).trace, ∃ placed : Grid,
      (∀ u v : Nat, 1 ≤ u → u ≤ 14 → 1 ≤ v → v ≤ 14 →
        ∃ k, k < 4 ∧ placed u v = rotate (p u v) (1 <<< k)) ∧
      (∀ x y : Nat, x < 13 → y < 14 →
        (e.1.horizontal x y = true ↔ placed (x + 1) (y + 1) &&& 2 ≠ 0) ∧
        (e.1.horizontal x y = true ↔ placed (x + 2) (y + 1) &&& 8 ≠ 0)) ∧
      (∀ x y : Nat, x < 14 → y < 13 →
        (e.1.vertical x y = true ↔ placed (x + 1) (y + 1) &&& 4 ≠ 0) ∧
        (e.1.vertical x y = true ↔ placed (x + 1) (y + 2) &&& 1 ≠ 0)) := by
  intro e he
  have hnz0 : ∀ a b : Nat, initOptions p a b ≠ 0 := fun a b => initOpt_ne_zero (p a b)
  obtain ⟨o2, hfix, hfin, hnz, hext⟩ :=
    dpll_origin oracle cb p 4096 (initOptions p) st 0 hnz0 e he
  refine ⟨fun u v => rotate (p u v) (o2 u v), ?_, ?_, ?_⟩
  · intro u v hu1 hu2 hv1 hv2
    have hm : (u, v) ∈ interiorCoords := mem_interior hu1 hu2 hv1 hv2
    have hsing2 : single_bit_set (o2 u v) = true := List.all_eq_true.mp hfin _ hm
    have hfix2 : newOptions p o2 u v = o2 u v := hfix _ hm
    have hlt : o2 u v < 16 := by
      have h := newOptions_le_15 p o2 u v
      rw [hfix2] at h
      omega
    rcases single_cases (o2 u v) hlt hsing2 (hnz u v) with h1 | h1 | h1 | h1
    · refine ⟨0, by omega, ?_⟩
      show rotate (p u v) (o2 u v) = rotate (p u v) (1 <<< 0)
      rw [h1, show (1 : Nat) <<< 0 = 1 from by decide]
    · refine ⟨1, by omega, ?_⟩
      show rotate (p u v) (o2 u v) = rotate (p u v) (1 <<< 1)
      rw [h1, show (1 : Nat) <<< 1 = 2 from by decide]
    · refine ⟨2, by omega, ?_⟩
      show rotate (p u v) (o2 u v) = rotate (p u v) (1 <<< 2)
      rw [h1, show (1 : Nat) <<< 2 = 4 from by decide]
    · refine ⟨3, by omega, ?_⟩
      show rotate (p u v) (o2 u v) = rotate (p u v) (1 <<< 3)
      rw [h1, show (1 : Nat) <<< 3 = 8 from by decide]
  · intro x y hx hy
    have hiff := fixpt_horiz p o2 hp hfix hfin hnz x y hx hy
    have hbit : e.1.horizontal x y = true ↔
        rotate (p (x + 1) (y + 1)) (o2 (x + 1) (y + 1)) &&& 2 ≠ 0 := by
      rw [hext]
      exact bne_iff_ne
    exact ⟨hbit, hbit.trans hiff⟩
  · intro x y hx hy
    have hiff := fixpt_vert p o2 hp hfix hfin hnz x y hx hy
    have hbit : e.1.vertical x y = true ↔
        rotate (p (x + 1) (y + 1)) (o2 (x + 1) (y + 1)) &&& 4 ≠ 0 := by
      rw [hext]
      exact bne_iff_ne
    exact ⟨hbit, hbit.trans hiff⟩

set_option maxRecDepth 100000 in
set_option maxHeartbeats 4000000 in
/-- The concrete run on the all-empty board delivers exactly one
solution, answered "continue" by the counting callback. -/
theorem zeroRunTrace :
    (il_solve (fun _ => (0, 0)) (fun _ n => (true, n + 1)) (fun _ _ => 0) (0 : Nat)).trace =
      [(extract (fun _ _ => 0) (initOptions fun _ _ => 0), true)] := by
  have hprop : propagate (fun _ _ => 0) (initOptions fun _ _ => 0) =
      some (initOptions fun _ _ => 0) := by rfl
  have hfin : finished (initOptions fun _ _ => 0) = true := by rfl
  rw [il_solve, show (4096 : Nat) = 4095 + 1 from rfl, dpllF_succ]
  simp only [hprop, hfin, if_true]

/-- Witness for C1: the agreement statement instantiated at the single
solution the all-empty board delivers. -/
theorem il_solve_edge_agreement_witness :
    ∃ placed : Grid,
      (∀ u v : Nat, 1 ≤ u → u ≤ 14 → 1 ≤ v → v ≤ 14 →
        ∃ k, k < 4 ∧ placed u v = rotate ((fun _ _ => 0 : Grid) u v) (1 <<< k)) ∧
      (∀ x y : Nat, x < 13 → y < 14 →
        ((extract (fun _ _ => 0) (initOptions fun _ _ => 0)).horizontal x y = true ↔
          placed (x + 1) (y + 1) &&& 2 ≠ 0) ∧
        ((extract (fun _ _ => 0) (initOptions fun _ _ => 0)).horizontal x y = true ↔
          placed (x + 2) (y + 1) &&& 8 ≠ 0)) ∧
      (∀ x y : Nat, x < 14 → y < 13 →
        ((extract (fun _ _ => 0) (initOptions fun _ _ => 0)).vertical x y = true ↔
          placed (x + 1) (y + 1) &&& 4 ≠ 0) ∧
        ((extract (fun _ _ => 0) (initOptions fun _ _ => 0)).vertical x y = true ↔
          placed (x + 1) (y + 2) &&& 1 ≠ 0)) :=
  il_solve_edge_agreement (fun _ => (0, 0)) (fun _ n => (true, n + 1)) (fun _ _ => 0) 0
    (by decide) (extract (fun _ _ => 0) (initOptions fun _ _ => 0), true)
    (by rw [zeroRunTrace]; exact List.mem_singleton.mpr rfl)

end InfiniteLoop
